import Mathlib

/-!
Verification of the job-apply-agent repository: a shallow embedding in Lean 4
of the ledger (src/lib/state.js), the form filler (src/lib/form-filler.js),
the humanized timing helpers (src/lib/humanize.js), and the per-platform
application loops (src/modules/linkedin.js, src/modules/indeed.js),
together with theorems settling the specification claims.
-/

namespace JobApply

/-! ## Ledger model — src/lib/state.js

The `applications` table is modelled as a list of rows in insertion order
(SQLite AUTOINCREMENT ids follow insertion order; `INSERT` appends a row).
-/

/-- The status strings written by the modules into the `status` column. -/
inductive Status where
  | submitted
  | already_applied
  | dry_run
  | skipped
  | error
  | captcha_blocked
  deriving DecidableEq, Repr

/-- The statuses that `hasApplied` treats as a prior success:
`status IN ('submitted', 'already_applied', 'dry_run')` (state.js line 90). -/
def successStatuses : List Status := [.submitted, .already_applied, .dry_run]

/-- One row of the `applications` table (state.js lines 38-49). -/
structure AttemptRecord where
  platform : String
  jobId : String
  jobTitle : Option String
  company : Option String
  jobUrl : Option String
  status : Status
  errorMessage : Option String
  appliedAt : String
  runId : String
  deriving DecidableEq, Repr

/-- `hasApplied(platform, jobId)` (state.js lines 87-93):
`SELECT id FROM applications WHERE platform = ? AND jobId = ? AND status IN
('submitted','already_applied','dry_run')`, then `!!row`: true iff at least
one row of the whole table matches. -/
def hasApplied (db : List AttemptRecord) (platform jobId : String) : Bool :=
  db.any fun r =>
    r.platform == platform && r.jobId == jobId && successStatuses.contains r.status

/-- The argument object of `recordApplication`; optional fields model
JavaScript `undefined`/empty strings coalesced by `|| null`. -/
structure AttemptArgs where
  platform : String
  jobId : String
  jobTitle : Option String
  company : Option String
  jobUrl : Option String
  status : Status
  errorMessage : Option String
  runId : String

/-- `x || null` on an optional string field: empty string is falsy in JS. -/
def orNull (s : Option String) : Option String :=
  match s with
  | some t => if t = "" then none else some t
  | none => none

/-- The row built by `recordApplication` (state.js lines 98-110). -/
def mkRecord (a : AttemptArgs) (now : String) : AttemptRecord :=
  { platform := a.platform
    jobId := a.jobId
    jobTitle := orNull a.jobTitle
    company := orNull a.company
    jobUrl := orNull a.jobUrl
    status := a.status
    errorMessage := orNull a.errorMessage
    appliedAt := now
    runId := a.runId }

/-- `recordApplication` (state.js lines 98-110): a single append-only
`INSERT INTO applications ... VALUES (...)`; no UPDATE or DELETE is issued. -/
def recordApplication (db : List AttemptRecord) (a : AttemptArgs) (now : String) :
    List AttemptRecord :=
  db ++ [mkRecord a now]

/-- Number of rows stored for one `(platform, jobId)` pair. -/
def rowCountFor (db : List AttemptRecord) (platform jobId : String) : Nat :=
  (db.filter fun r => r.platform == platform && r.jobId == jobId).length

/-! ## Humanize model — src/lib/humanize.js -/

/-- `bytesNeeded = Math.ceil(Math.log2(range) / 8)`: the least number of
bytes whose value space covers `range` (humanize.js line 11). -/
def bytesNeeded (range : Nat) : Nat := Nat.clog 256 range

/-- `maxValid = Math.floor(256 ** bytesNeeded / range) * range`
(humanize.js line 12). -/
def maxValid (range : Nat) : Nat := (256 ^ bytesNeeded range / range) * range

/-- `randomInt(min, max)` (humanize.js lines 9-20) for one accepted sample
`value` of the rejection loop: `min + (value % range)` with
`range = max - min + 1`. The sampled `value` (the bytes of
`crypto.randomBytes` folded base 256) is passed explicitly. -/
def randomInt (min max : Int) (value : Nat) : Int :=
  min + (value : Int) % (max - min + 1)

/-- `Math.round`: round half toward positive infinity. -/
def jsRound (q : ℚ) : Int := ⌊q + 1 / 2⌋

/-- `normalDelay(min, max, samples)` (humanize.js lines 26-32): the rounded
mean of `samples` calls to `randomInt`; the accepted draw of each call is
supplied as a list (one entry per sample). -/
def normalDelay (min max : Int) (draws : List Nat) : Int :=
  jsRound (((draws.map (randomInt min max)).sum : ℚ) / (draws.length : ℚ))

/-! ## Label normalization — src/lib/form-filler.js lines 15-21

Strings are modelled as lists of characters. `toLowerCase` is modelled on
the ASCII range (the label alphabet that survives normalization); the JS
whitespace class `\s` is modelled by its full code-point set.
-/

/-- The code points matched by `\s` in a JavaScript regular expression
(also the set trimmed by `String.prototype.trim`). -/
def jsWhitespaceCodes : List Nat :=
  [0x9, 0xa, 0xb, 0xc, 0xd, 0x20, 0xa0, 0x1680,
   0x2000, 0x2001, 0x2002, 0x2003, 0x2004, 0x2005, 0x2006, 0x2007,
   0x2008, 0x2009, 0x200a, 0x2028, 0x2029, 0x202f, 0x205f, 0x3000, 0xfeff]

def jsWhitespace (c : Char) : Bool := jsWhitespaceCodes.contains c.toNat

/-- `toLowerCase` on the ASCII letters (identity elsewhere in the model). -/
def jsToLower (c : Char) : Char :=
  if 'A' ≤ c ∧ c ≤ 'Z' then Char.ofNat (c.toNat + 32) else c

/-- A character kept by the class `[a-z0-9\s]` of the first `replace`. -/
def keptChar (c : Char) : Bool :=
  ('a' ≤ c && c ≤ 'z') || ('0' ≤ c && c ≤ '9') || jsWhitespace c

/-- `replace(/[^a-z0-9\s]/g, ' ')`: every character outside the class
becomes one space. -/
def replaceNonAlnum (s : List Char) : List Char :=
  s.map fun c => if keptChar c then c else ' '

/-- `replace(/\s+/g, ' ')`: every maximal run of whitespace characters
becomes a single space. The boolean argument records whether the previous
character belonged to a whitespace run. -/
def collapseWS : Bool → List Char → List Char
  | _, [] => []
  | prevWS, c :: rest =>
    if jsWhitespace c then
      if prevWS then collapseWS true rest
      else ' ' :: collapseWS true rest
    else c :: collapseWS false rest

/-- `String.prototype.trim`: drop whitespace from both ends. -/
def trimWS (s : List Char) : List Char :=
  ((s.dropWhile jsWhitespace).reverse.dropWhile jsWhitespace).reverse

/-- `normalizeLabel` (form-filler.js lines 15-21): lowercase, replace
non-`[a-z0-9\s]` by spaces, collapse whitespace runs, trim. -/
def normalizeLabel (s : List Char) : List Char :=
  trimWS (collapseWS false (replaceNonAlnum (s.map jsToLower)))

/-! ## Fuzzy matching — the `string-similarity` dependency

`findAnswer` calls `stringSimilarity.findBestMatch`, whose rating is the
Sørensen-Dice coefficient over character bigrams (`compareTwoStrings`):
whitespace is stripped, identical strings rate 1, strings shorter than two
characters rate 0, and otherwise the rating is
`2 * |bigram multiset intersection| / (len₁ + len₂ - 2)`, a rational.
-/

/-- The list of character bigrams of a string. -/
def bigrams (s : List Char) : List (Char × Char) :=
  s.zip s.tail

/-- Multiset intersection size, computed exactly like the JS loop: each
bigram of the second string consumes one remaining occurrence in the
first string's bigram map. -/
def interCount : List (Char × Char) → List (Char × Char) → Nat
  | _, [] => 0
  | fb, g :: gs => if g ∈ fb then interCount (fb.erase g) gs + 1 else interCount fb gs

/-- `first.replace(/\s+/g, '')`: strip all whitespace. -/
def stripWS (s : List Char) : List Char := s.filter fun c => !jsWhitespace c

/-- `compareTwoStrings(first, second)` of string-similarity. -/
def compareTwoStrings (a b : List Char) : ℚ :=
  if stripWS a = stripWS b then 1
  else if (stripWS a).length < 2 ∨ (stripWS b).length < 2 then 0
  else (2 * (interCount (bigrams (stripWS a)) (bigrams (stripWS b)) : ℚ)) /
    (((stripWS a).length + (stripWS b).length - 2 : ℕ) : ℚ)

/-- The index scan of `findBestMatch`: the first index attains the running
maximum under a strict `>` comparison. -/
def bestIdxAux : List ℚ → Nat → Nat → ℚ → Nat × ℚ
  | [], _, bi, br => (bi, br)
  | r :: rest, i, bi, br =>
    if br < r then bestIdxAux rest (i + 1) i r else bestIdxAux rest (i + 1) bi br

/-- `findBestMatch(mainString, targetStrings)` reduced to
`(bestMatchIndex, bestMatch.rating)`. The caller guarantees a non-empty
target list (a JS object with no keys is rejected earlier). -/
def findBestMatch (label : List Char) (keys : List (List Char)) : Nat × ℚ :=
  match keys.map (compareTwoStrings label) with
  | [] => (0, 0)
  | r0 :: rest => bestIdxAux rest 1 0 r0

/-- The fuzzy-match acceptance threshold `FUZZY_THRESHOLD = 0.6`
(form-filler.js line 6). -/
def FUZZY_THRESHOLD : ℚ := 3 / 5

/-- Substring containment either direction:
`label.includes(key) || key.includes(label)` (form-filler.js line 42). -/
def containsEither (label key : List Char) : Bool :=
  decide (key <:+: label) || decide (label <:+: key)

/-- `findAnswer(label, defaultAnswers)` (form-filler.js lines 31-48).
The knowledge base is an association list in object-key insertion order;
`defaultAnswers[bestMatch.target]` is a lookup by the key string. -/
def findAnswer (label : List Char) (kb : List (List Char × String)) : Option String :=
  if kb.isEmpty then none
  else
    let keys := kb.map Prod.fst
    let best := findBestMatch label keys
    if FUZZY_THRESHOLD ≤ best.2 then
      (kb.find? fun p => p.1 == keys.getD best.1 []).map Prod.snd
    else
      (kb.find? fun p => containsEither label p.1).map Prod.snd

/-! ## Select-dropdown handling — `fillForm`, src/lib/form-filler.js lines 312-384

The per-`<select>` logic is modelled as a pure decision function over the
rendered state of the field. Browser interaction (`fillSelect`) is the
applied effect of the decision and is abstracted as succeeding.
-/

/-- The anchored, case-insensitive placeholder pattern
`/^(|0|placeholder|select|select an option|choose|please select|-- select|--select--)$/i`
(form-filler.js line 326). -/
def placeholderTexts : List (List Char) :=
  [[], ['0'],
   "placeholder".data, "select".data, "select an option".data, "choose".data,
   "please select".data, "-- select".data, "--select--".data]

def isPlaceholder (s : List Char) : Bool :=
  placeholderTexts.contains (s.map jsToLower)

/-- The rendered state of one `<select>` element. -/
structure SelectField where
  visible : Bool
  /-- `select.inputValue()` — the value of the selected option. -/
  selectedValue : List Char
  /-- the text content of the selected option, trimmed. -/
  selectedText : List Char
  /-- `innerText` of each `<option>` in DOM order. -/
  optionTexts : List (List Char)

/-- What `fillForm` decides to do with one select field. -/
inductive SelectAction where
  /-- hidden field: `continue` without touching it. -/
  | skippedHidden
  /-- non-placeholder selection already present: `continue`. -/
  | skippedAlready
  /-- attempt to select the option at this index (into `optionTexts`). -/
  | choose (idx : Nat)
  /-- fall through without attempting any selection. -/
  | leftUnset
  deriving DecidableEq, Repr

/-- `t.trim()` of JS, on the list-of-characters model. -/
def jsTrim (s : List Char) : List Char := trimWS s

/-- A non-empty, non-placeholder option text (the `firstRealIdx` predicate,
form-filler.js lines 372-374). -/
def realOption (t : List Char) : Bool :=
  !(jsTrim t).isEmpty && !isPlaceholder (jsTrim t)

/-- The answer-present branch (form-filler.js lines 342-369): filter
non-placeholder options, fuzzy-match the answer against their lowercased
texts at threshold 0.4, and choose the matching option's original index. -/
def selectWithAnswer (f : SelectField) (answer : List Char) : SelectAction :=
  let details := f.optionTexts.enum.map fun p => (p.1, jsTrim p.2)
  let nonPlaceholder := details.filter fun p => !p.2.isEmpty && !isPlaceholder p.2
  let texts := nonPlaceholder.map fun p => p.2.map jsToLower
  if texts.isEmpty then .leftUnset
  else
    let best := findBestMatch (answer.map jsToLower) texts
    if (2 : ℚ) / 5 ≤ best.2 then
      match nonPlaceholder.find? fun p => p.2.map jsToLower == texts.getD best.1 [] with
      | some p => .choose p.1
      | none => .leftUnset
    else .leftUnset

/-- The per-select decision of `fillForm` (form-filler.js lines 314-384).
`answer` is the result of `findAnswer` on the field's normalized label. -/
def selectDecision (f : SelectField) (answer : Option (List Char)) : SelectAction :=
  if !f.visible then .skippedHidden
  else if !f.selectedValue.isEmpty
      && !isPlaceholder f.selectedValue && !isPlaceholder f.selectedText then
    .skippedAlready
  else
    match answer with
    | some a => selectWithAnswer f a
    | none =>
      if 1 < f.optionTexts.length then
        match f.optionTexts.findIdx? realOption with
        | some i => .choose i
        | none => .leftUnset
      else .leftUnset

/-! ## LinkedIn Easy Apply modal loop — src/modules/linkedin.js lines 561-670

The per-job multi-step modal traversal. Each rendered step is abstracted by
the visible label texts the fingerprint `page.evaluate` collects (trimmed,
truncated, in DOM order) together with the result `handleModalStep` returns
for that step. The DOM is an external input, so the sequence of steps is a
stream indexed by the loop's 0-based step position.
-/

/-- The value `handleModalStep` returns for one step
(linkedin.js lines 129-320). -/
inductive StepResult where
  | next
  | submitted
  | validationError
  | noButton
  deriving DecidableEq, Repr

/-- One rendered modal step: the label texts collected by the fingerprint
script, and the step's navigation result. -/
structure ModalStep where
  labels : List String
  result : StepResult

/-- The step fingerprint (linkedin.js lines 573-582): the non-empty label
texts, sorted, joined with `"||"`. -/
def stepFingerprint (labels : List String) : String :=
  String.intercalate ("||") ((labels.filter fun t => t ≠ "").insertionSort (· ≤ ·))

/-- Terminal outcome of one job's modal traversal, with the number of steps
`handleModalStep` processed. Every constructor except `submitted`
corresponds to a thrown job-level `Error`. -/
inductive ModalOutcome where
  /-- `result === 'submitted'`: the application was submitted. -/
  | submitted (processed : Nat)
  /-- `Modal cycled` error, thrown before processing the repeated step. -/
  | cycled (processed : Nat)
  /-- `Validation errors on step …` error. -/
  | validationStuck (processed : Nat)
  /-- `Could not navigate modal step …` error. -/
  | stepError (processed : Nat)
  /-- `Modal exceeded MAX_STEPS steps without submitting` error. -/
  | exceededSteps (processed : Nat)
  deriving DecidableEq, Repr

def ModalOutcome.processed : ModalOutcome → Nat
  | .submitted n | .cycled n | .validationStuck n | .stepError n | .exceededSteps n => n

def ModalOutcome.isSubmitted : ModalOutcome → Bool
  | .submitted _ => true
  | _ => false

/-- `MAX_STEPS = 12` (linkedin.js line 567). -/
def MAX_STEPS_LINKEDIN : Nat := 12

/-- The `while (!modalComplete && stepCount < MAX_STEPS)` loop
(linkedin.js lines 569-666): `stepCount` counts processed steps,
`remaining = MAX_STEPS - stepCount`, and `seen` is the set of fingerprints
recorded so far (only non-empty fingerprints are added). -/
def runModalAux (steps : Nat → ModalStep) (seen : List String) :
    Nat → Nat → ModalOutcome
  | stepCount, 0 => .exceededSteps stepCount
  | stepCount, r + 1 =>
    let fp := stepFingerprint (steps stepCount).labels
    if fp ≠ "" ∧ fp ∈ seen then .cycled stepCount
    else
      let seen' := if fp ≠ "" then fp :: seen else seen
      match (steps stepCount).result with
      | .submitted => .submitted (stepCount + 1)
      | .validationError => .validationStuck (stepCount + 1)
      | .noButton => .stepError (stepCount + 1)
      | .next => runModalAux steps seen' (stepCount + 1) r

/-- One job's LinkedIn modal traversal. -/
def runModal (steps : Nat → ModalStep) : ModalOutcome :=
  runModalAux steps [] 0 MAX_STEPS_LINKEDIN

/-! ## Indeed multi-step form loop — src/modules/indeed.js lines 334-365 -/

/-- `handleIndeedStep` returns `'next'`, `'submitted'` or `'error'`
(indeed.js lines 86-134). -/
inductive IndeedStepResult where
  | next
  | submitted
  | error
  deriving DecidableEq, Repr

inductive IndeedFormOutcome where
  | submitted (processed : Nat)
  | stepError (processed : Nat)
  | exceededSteps (processed : Nat)
  deriving DecidableEq, Repr

def IndeedFormOutcome.processed : IndeedFormOutcome → Nat
  | .submitted n | .stepError n | .exceededSteps n => n

def IndeedFormOutcome.isSubmitted : IndeedFormOutcome → Bool
  | .submitted _ => true
  | _ => false

/-- `MAX_STEPS = 8` (indeed.js line 337). -/
def MAX_STEPS_INDEED : Nat := 8

/-- The `while (!formComplete && stepCount < MAX_STEPS)` loop
(indeed.js lines 339-362): no fingerprinting, no validation check. -/
def runIndeedFormAux (steps : Nat → IndeedStepResult) : Nat → Nat → IndeedFormOutcome
  | stepCount, 0 => .exceededSteps stepCount
  | stepCount, r + 1 =>
    match steps stepCount with
    | .submitted => .submitted (stepCount + 1)
    | .error => .stepError (stepCount + 1)
    | .next => runIndeedFormAux steps (stepCount + 1) r

def runIndeedForm (steps : Nat → IndeedStepResult) : IndeedFormOutcome :=
  runIndeedFormAux steps 0 MAX_STEPS_INDEED

/-! ## Platform candidate loops — retry / block supervision

Models of the per-candidate loops of `applyLinkedIn`
(linkedin.js lines 419-749) and `applyIndeed` (indeed.js lines 198-408),
restricted to one page of candidates (pagination and the
`applied < maxApplications` cap repeat the same body and do not affect the
retry/block behaviour the claims are about).

A candidate attempt interacts with the external site; its possible results
are abstracted by `AttemptResult`, supplied as a script indexed by job id
and by the number of the attempt for that job. The ledger is the list of
`(jobId, status)` pairs this platform's rows reduce to.
-/

/-- What one processing of a candidate card does (the body of the `try`
block), as observed by the supervisor's `catch` logic. -/
inductive AttemptResult where
  /-- the modal/form completed: record `submitted` (or `dry_run`). -/
  | completed
  /-- skipped with no record written (e.g. Easy Apply button not visible). -/
  | skipNoRecord
  /-- skipped with a record: `already_applied` if the site reported a prior
  application, `skipped` otherwise. -/
  | skipRecorded (alreadyApplied : Bool)
  /-- a job-level exception was thrown; `blockDetected` is the result of
  the block-detection check run inside the `catch` handler. -/
  | exn (blockDetected : Bool)
  deriving DecidableEq

/-- A per-platform ledger row as the claims see it. -/
abbrev LedgerRow := String × Status

/-- `state.hasApplied(platform, jobId)` restricted to this platform's rows. -/
def hasAppliedRows (rows : List LedgerRow) (jobId : String) : Bool :=
  rows.any fun r => r.1 == jobId && successStatuses.contains r.2

/-- The sentinel row written when block detection fires
(`{ jobId: 'captcha_detected', status: 'captcha_blocked' }`). -/
def blockRow : LedgerRow := ("captcha_detected", .captcha_blocked)

/-- The state a platform loop returns: the rows it appended to the ledger
(in order), the ids of the attempts it made (in order), and whether it
stopped because block detection fired. -/
structure RunState where
  records : List LedgerRow
  trace : List String
  blocked : Bool
  deriving DecidableEq, Repr

/-- Terminal result of driving one LinkedIn candidate to completion,
including the `cardIdx--` retry re-visits; carries the number of attempts
made on this candidate. -/
inductive JobTerm where
  | submittedT (attempts : Nat)
  | skippedNoRec (attempts : Nat)
  | skippedRec (alreadyApplied : Bool) (attempts : Nat)
  | erroredT (attempts : Nat)
  | blockedT (attempts : Nat)
  deriving DecidableEq, Repr

def JobTerm.attempts : JobTerm → Nat
  | .submittedT n | .skippedNoRec n | .skippedRec _ n | .erroredT n | .blockedT n => n

/-- The LinkedIn retry loop for one candidate (linkedin.js lines 733-747):
on an exception with no block detected, `attemptsMade = retryAttempts.get(jobId) + 1`;
if `attemptsMade ≤ maxRetries` the counter is stored and `cardIdx--`
re-visits the same card, otherwise the job is terminal with an error.
`attemptIdx` is the number of attempts already made, `remaining` the number
of retries still allowed (`maxRetries - retryAttempts.get(jobId)`). -/
def runJobAuxL (script : Nat → AttemptResult) : Nat → Nat → JobTerm
  | attemptIdx, remaining =>
    match script attemptIdx with
    | .completed => .submittedT (attemptIdx + 1)
    | .skipNoRecord => .skippedNoRec (attemptIdx + 1)
    | .skipRecorded b => .skippedRec b (attemptIdx + 1)
    | .exn true => .blockedT (attemptIdx + 1)
    | .exn false =>
      match remaining with
      | 0 => .erroredT (attemptIdx + 1)
      | r + 1 => runJobAuxL script (attemptIdx + 1) r

def runJobL (script : Nat → AttemptResult) (maxRetries : Nat) : JobTerm :=
  runJobAuxL script 0 maxRetries

/-- The per-candidate loop of `applyLinkedIn` over one batch of cards.
`db0` holds the platform's ledger rows from earlier runs (consulted by
`hasApplied`); `dryRun` selects the `dry_run` status on completion. -/
def linkedinLoop (script : String → Nat → AttemptResult) (maxRetries : Nat)
    (dryRun : Bool) (db0 : List LedgerRow) :
    List String → List LedgerRow → List String → RunState
  | [], recs, tr => ⟨recs, tr, false⟩
  | j :: rest, recs, tr =>
    if hasAppliedRows (db0 ++ recs) j then
      linkedinLoop script maxRetries dryRun db0 rest
        (recs ++ [(j, .already_applied)]) tr
    else
      match runJobL (script j) maxRetries with
      | .submittedT a =>
        linkedinLoop script maxRetries dryRun db0 rest
          (recs ++ [(j, if dryRun then .dry_run else .submitted)])
          (tr ++ List.replicate a j)
      | .skippedNoRec a =>
        linkedinLoop script maxRetries dryRun db0 rest recs (tr ++ List.replicate a j)
      | .skippedRec b a =>
        linkedinLoop script maxRetries dryRun db0 rest
          (recs ++ [(j, if b then .already_applied else .skipped)])
          (tr ++ List.replicate a j)
      | .erroredT a =>
        linkedinLoop script maxRetries dryRun db0 rest
          (recs ++ [(j, .error)]) (tr ++ List.replicate a j)
      | .blockedT a =>
        ⟨recs ++ [blockRow], tr ++ List.replicate a j, true⟩

/-- `applyLinkedIn` restricted to the supervision structure: the CAPTCHA
check after the initial navigation (linkedin.js lines 369-376), then the
candidate loop. -/
def linkedinRun (blockAtStart : Bool) (script : String → Nat → AttemptResult)
    (maxRetries : Nat) (dryRun : Bool) (db0 : List LedgerRow)
    (jobs : List String) : RunState :=
  if blockAtStart then ⟨[blockRow], [], true⟩
  else linkedinLoop script maxRetries dryRun db0 jobs [] []

/-- The queue measure justifying termination of the Indeed loop: each
retry strictly decreases the retries still available to the front job. -/
def indeedMeasure (maxRetries : Nat) (retry : String → Nat) (queue : List String) : Nat :=
  (queue.map fun x => maxRetries + 1 - retry x).sum + queue.length

/-- `retryAttempts.set(jobId, attemptsMade)`: bump the in-memory retry
counter of job `j`. -/
def bump (retry : String → Nat) (j : String) : String → Nat :=
  fun x => if x = j then retry j + 1 else retry x

lemma indeedMeasure_requeue (maxRetries : Nat) (retry : String → Nat) (j : String)
    (rest : List String) (h : retry j + 1 ≤ maxRetries) :
    indeedMeasure maxRetries (bump retry j) (rest ++ [j]) <
      indeedMeasure maxRetries retry (j :: rest) := by
  have hle : ((rest.map fun x => maxRetries + 1 - bump retry j x).sum)
      ≤ (rest.map fun x => maxRetries + 1 - retry x).sum := by
    apply List.sum_le_sum
    intro x _
    by_cases hx : x = j
    · simp only [bump, hx, if_pos]; omega
    · simp only [bump, if_neg hx]; omega
  have hj : bump retry j j = retry j + 1 := by simp [bump]
  simp only [indeedMeasure, List.map_append, List.sum_append, List.length_append,
    List.map_cons, List.map_nil, List.sum_cons, List.sum_nil, List.length_cons,
    List.length_nil, hj]
  omega

/-- The per-candidate loop of `applyIndeed` (indeed.js lines 196-408):
candidates are held in `cardsToProcess`, and a retried candidate is pushed
to the back of the queue (`cardsToProcess.push(card)`, line 397) after its
in-memory retry counter is bumped (`retryAttempts.set(jobId, attemptsMade)`). -/
def indeedLoop (script : String → Nat → AttemptResult) (maxRetries : Nat)
    (dryRun : Bool) (db0 : List LedgerRow) :
    (queue : List String) → (retry : String → Nat) →
    List LedgerRow → List String → RunState
  | [], _, recs, tr => ⟨recs, tr, false⟩
  | j :: rest, retry, recs, tr =>
    if hasAppliedRows (db0 ++ recs) j then
      indeedLoop script maxRetries dryRun db0 rest retry
        (recs ++ [(j, .already_applied)]) tr
    else
      match script j (retry j) with
      | .completed =>
        indeedLoop script maxRetries dryRun db0 rest retry
          (recs ++ [(j, if dryRun then .dry_run else .submitted)]) (tr ++ [j])
      | .skipNoRecord =>
        indeedLoop script maxRetries dryRun db0 rest retry recs (tr ++ [j])
      | .skipRecorded b =>
        indeedLoop script maxRetries dryRun db0 rest retry
          (recs ++ [(j, if b then .already_applied else .skipped)]) (tr ++ [j])
      | .exn true => ⟨recs ++ [blockRow], tr ++ [j], true⟩
      | .exn false =>
        if hreq : retry j + 1 ≤ maxRetries then
          indeedLoop script maxRetries dryRun db0 (rest ++ [j])
            (bump retry j) recs (tr ++ [j])
        else
          indeedLoop script maxRetries dryRun db0 rest retry
            (recs ++ [(j, .error)]) (tr ++ [j])
  termination_by queue retry _ _ => indeedMeasure maxRetries retry queue
  decreasing_by
  · simp only [indeedMeasure, List.map_cons, List.sum_cons, List.length_cons]; omega
  · simp only [indeedMeasure, List.map_cons, List.sum_cons, List.length_cons]; omega
  · simp only [indeedMeasure, List.map_cons, List.sum_cons, List.length_cons]; omega
  · simp only [indeedMeasure, List.map_cons, List.sum_cons, List.length_cons]; omega
  · exact indeedMeasure_requeue maxRetries retry j rest hreq
  · simp only [indeedMeasure, List.map_cons, List.sum_cons, List.length_cons]; omega

/-- `applyIndeed` restricted to the supervision structure: the bot-detection
check after the initial navigation (indeed.js lines 166-173), then the
queue loop with all retry counters starting at zero. -/
def indeedRun (blockAtStart : Bool) (script : String → Nat → AttemptResult)
    (maxRetries : Nat) (dryRun : Bool) (db0 : List LedgerRow)
    (jobs : List String) : RunState :=
  if blockAtStart then ⟨[blockRow], [], true⟩
  else indeedLoop script maxRetries dryRun db0 jobs (fun _ => 0) [] []

/-! # Theorems -/

/-! ## C1 — `hasApplied` is an OR over the full attempt history -/

/-- C1: `hasApplied(platform, jobId)` is true iff at least one recorded
`AttemptRecord` for that pair has status in
{submitted, already_applied, dry_run}: an existential over all historical
rows (never a last-write-wins lookup), and once true it stays true as
further records are appended by `recordApplication`. -/
theorem hasApplied_or_over_history (db : List AttemptRecord) (platform jobId : String) :
    (hasApplied db platform jobId = true ↔
      ∃ r ∈ db, r.platform = platform ∧ r.jobId = jobId ∧
        r.status ∈ ([.submitted, .already_applied, .dry_run] : List Status))
    ∧ (∀ a now, hasApplied db platform jobId = true →
        hasApplied (recordApplication db a now) platform jobId = true) := by
  constructor
  · simp only [hasApplied, List.any_eq_true, Bool.and_eq_true, beq_iff_eq,
      List.contains, List.elem_iff, successStatuses]
    tauto
  · intro a now h
    simp only [hasApplied, recordApplication, List.any_append, Bool.or_eq_true]
    exact Or.inl (by simpa [hasApplied] using h)

/-- Witness for C1 at a concrete history: a `submitted` row followed by a
later `error` row — the pair still reads as applied, and stays so after a
further append. -/
theorem hasApplied_or_over_history_witness :
    hasApplied
      [{ platform := "linkedin", jobId := "42", jobTitle := none, company := none,
         jobUrl := none, status := .submitted, errorMessage := none,
         appliedAt := "t0", runId := "r0" },
       { platform := "linkedin", jobId := "42", jobTitle := none, company := none,
         jobUrl := none, status := .error, errorMessage := some ("boom"),
         appliedAt := "t1", runId := "r1" }] "linkedin" "42" = true
    ∧ hasApplied
        (recordApplication
          [{ platform := "linkedin", jobId := "42", jobTitle := none, company := none,
             jobUrl := none, status := .submitted, errorMessage := none,
             appliedAt := "t0", runId := "r0" },
           { platform := "linkedin", jobId := "42", jobTitle := none, company := none,
             jobUrl := none, status := .error, errorMessage := some ("boom"),
             appliedAt := "t1", runId := "r1" }]
          { platform := "linkedin", jobId := "42", jobTitle := none, company := none,
            jobUrl := none, status := .error, errorMessage := some ("again"), runId := "r2" }
          "t2") "linkedin" "42" = true := by
  refine ⟨?_, ?_⟩
  · exact ((hasApplied_or_over_history _ ("linkedin") ("42")).1).mpr
      ⟨_, List.mem_cons_self _ _, rfl, rfl, by simp⟩
  · exact (hasApplied_or_over_history _ ("linkedin") ("42")).2 _ ("t2") (by decide)

/-! ## C2 — `recordApplication` is append-only -/

/-- C2: `recordApplication` only ever inserts: the prior rows survive
unchanged as a prefix (no update, no delete), the table grows by exactly
one row, and the row count of every `(platform, jobId)` pair is
monotonically non-decreasing. -/
theorem recordApplication_append_only (db : List AttemptRecord) (a : AttemptArgs)
    (now : String) :
    (recordApplication db a now).length = db.length + 1
    ∧ (recordApplication db a now).take db.length = db
    ∧ ∀ platform jobId,
        rowCountFor db platform jobId ≤
          rowCountFor (recordApplication db a now) platform jobId := by
  refine ⟨by simp [recordApplication], ?_, ?_⟩
  · simp [recordApplication, List.take_left]
  · intro platform jobId
    simp only [rowCountFor, recordApplication, List.filter_append, List.length_append]
    exact Nat.le_add_right _ _

/-! ## C10 — `randomInt` and `normalDelay` stay in `[min, max]` -/

lemma sum_bounds (l : List Int) (a b : Int) (h : ∀ x ∈ l, a ≤ x ∧ x ≤ b) :
    (l.length : Int) * a ≤ l.sum ∧ l.sum ≤ (l.length : Int) * b := by
  induction l with
  | nil => simp
  | cons x xs ih =>
    have hx := h x (List.mem_cons_self _ _)
    have ihx := ih fun y hy => h y (List.mem_cons_of_mem _ hy)
    simp only [List.sum_cons, List.length_cons]
    constructor <;> · push_cast; nlinarith [hx.1, hx.2, ihx.1, ihx.2]

lemma jsRound_bounds (q : ℚ) (a b : Int) (h1 : (a : ℚ) ≤ q) (h2 : q ≤ (b : ℚ)) :
    a ≤ jsRound q ∧ jsRound q ≤ b := by
  constructor
  · rw [jsRound, Int.le_floor]
    linarith
  · rw [jsRound]
    have : q + 1 / 2 ≤ (b : ℚ) + 1 / 2 := by linarith
    calc ⌊q + 1 / 2⌋ ≤ ⌊(b : ℚ) + 1 / 2⌋ := Int.floor_le_floor this
      _ = b + ⌊(1 : ℚ) / 2⌋ := by rw [add_comm ((b : ℚ)) (1 / 2), Int.floor_add_int]; ring
      _ = b := by norm_num

/-- C10: for `min ≤ max`, `randomInt(min, max)` returns an integer in the
inclusive range `[min, max]` for every accepted byte draw, and
`normalDelay(min, max, k)` with `k ≥ 1` samples — the rounded average of
in-range samples — also lands in `[min, max]`. -/
theorem randomInt_normalDelay_in_range (min max : Int) (h : min ≤ max) :
    (∀ value : Nat, min ≤ randomInt min max value ∧ randomInt min max value ≤ max)
    ∧ (∀ draws : List Nat, draws ≠ [] →
        min ≤ normalDelay min max draws ∧ normalDelay min max draws ≤ max) := by
  have hrange : (0 : Int) < max - min + 1 := by omega
  have hone : ∀ value : Nat, min ≤ randomInt min max value ∧ randomInt min max value ≤ max := by
    intro value
    have h0 : (0 : Int) ≤ (value : Int) % (max - min + 1) :=
      Int.emod_nonneg _ (by omega)
    have h1 : (value : Int) % (max - min + 1) < max - min + 1 :=
      Int.emod_lt_of_pos _ hrange
    unfold randomInt
    omega
  refine ⟨hone, ?_⟩
  intro draws hne
  have hlen : 0 < draws.length := List.length_pos.mpr hne
  have hmem : ∀ x ∈ draws.map (randomInt min max), min ≤ x ∧ x ≤ max := by
    intro x hx
    obtain ⟨v, _, rfl⟩ := List.mem_map.mp hx
    exact hone v
  have hsum := sum_bounds (draws.map (randomInt min max)) min max hmem
  rw [List.length_map] at hsum
  set s : Int := (draws.map (randomInt min max)).sum with hs
  have hlenQ : (0 : ℚ) < (draws.length : ℚ) := by exact_mod_cast hlen
  have hlow : (min : ℚ) ≤ (s : ℚ) / (draws.length : ℚ) := by
    rw [le_div_iff₀ hlenQ]
    calc (min : ℚ) * (draws.length : ℚ) = (((draws.length : Int) * min : Int) : ℚ) := by
          push_cast; ring
      _ ≤ (s : ℚ) := by exact_mod_cast hsum.1
  have hhigh : (s : ℚ) / (draws.length : ℚ) ≤ (max : ℚ) := by
    rw [div_le_iff₀ hlenQ]
    calc (s : ℚ) ≤ (((draws.length : Int) * max : Int) : ℚ) := by exact_mod_cast hsum.2
      _ = (max : ℚ) * (draws.length : ℚ) := by push_cast; ring
  exact jsRound_bounds _ min max hlow hhigh

/-! ## C9 — `normalizeLabel` is idempotent and produces a normal form -/

/-- A lowercase ASCII letter or digit — the non-space output alphabet of
`normalizeLabel`. -/
def lowerAlnum (c : Char) : Bool :=
  ('a' ≤ c && c ≤ 'z') || ('0' ≤ c && c ≤ '9')

/-- Adjacent characters are not both spaces. -/
def spacedApart (a b : Char) : Prop := ¬(a = ' ' ∧ b = ' ')

lemma lowerAlnum_iff (c : Char) :
    lowerAlnum c = true ↔ (97 ≤ c.toNat ∧ c.toNat ≤ 122) ∨ (48 ≤ c.toNat ∧ c.toNat ≤ 57) := by
  simp [lowerAlnum, Char.le_def, UInt32.le_def, Char.toNat, UInt32.toNat, BitVec.le_def]

lemma jsWhitespace_mem (c : Char) :
    jsWhitespace c = true ↔ c.toNat ∈ jsWhitespaceCodes := by
  simp [jsWhitespace, List.contains, List.elem_iff]

lemma lowerAlnum_not_ws (c : Char) (h : lowerAlnum c = true) : jsWhitespace c = false := by
  rw [lowerAlnum_iff] at h
  cases hw : jsWhitespace c
  · rfl
  · exfalso
    have := (jsWhitespace_mem c).mp hw
    simp [jsWhitespaceCodes] at this
    omega

lemma lowerAlnum_toLower (c : Char) (h : lowerAlnum c = true) : jsToLower c = c := by
  rw [lowerAlnum_iff] at h
  unfold jsToLower
  rw [if_neg]
  intro hAZ
  have h1 : 65 ≤ c.toNat ∧ c.toNat ≤ 90 := by
    constructor
    · have := hAZ.1
      simpa [Char.le_def, UInt32.le_def, Char.toNat, UInt32.toNat, BitVec.le_def] using this
    · have := hAZ.2
      simpa [Char.le_def, UInt32.le_def, Char.toNat, UInt32.toNat, BitVec.le_def] using this
  omega

lemma lowerAlnum_kept (c : Char) (h : lowerAlnum c = true) : keptChar c = true := by
  unfold keptChar
  unfold lowerAlnum at h
  rw [h]
  rfl

lemma space_ws : jsWhitespace ' ' = true := by decide

lemma ws_kept (c : Char) (h : jsWhitespace c = true) : keptChar c = true := by
  unfold keptChar
  rw [h]
  simp

lemma not_ws_kept_lowerAlnum (c : Char) (hw : jsWhitespace c = false)
    (hk : keptChar c = true) : lowerAlnum c = true := by
  unfold keptChar at hk
  unfold lowerAlnum
  rw [hw] at hk
  simpa using hk

/-- Every character of `replaceNonAlnum s` is a space or a kept character. -/
lemma replaceNonAlnum_chars (s : List Char) :
    ∀ c ∈ replaceNonAlnum s, c = ' ' ∨ keptChar c = true := by
  intro c hc
  obtain ⟨x, _, rfl⟩ := List.mem_map.mp hc
  by_cases hk : keptChar x = true
  · right; simp [hk]
  · left; simp [hk]

/-- Every character of a collapsed string is a space or a non-whitespace
character of the input. -/
lemma collapseWS_mem (s : List Char) :
    ∀ b, ∀ c ∈ collapseWS b s, c = ' ' ∨ (c ∈ s ∧ jsWhitespace c = false) := by
  induction s with
  | nil => intro b c hc; simp [collapseWS] at hc
  | cons a rest ih =>
    intro b c hc
    by_cases hw : jsWhitespace a
    · rcases b with _ | _
      · rw [collapseWS, if_pos hw, if_neg (by simp)] at hc
        rcases List.mem_cons.mp hc with h | h
        · exact Or.inl h
        · rcases ih true c h with h' | h'
          · exact Or.inl h'
          · exact Or.inr ⟨List.mem_cons_of_mem _ h'.1, h'.2⟩
      · rw [collapseWS, if_pos hw, if_pos rfl] at hc
        rcases ih true c hc with h' | h'
        · exact Or.inl h'
        · exact Or.inr ⟨List.mem_cons_of_mem _ h'.1, h'.2⟩
    · rw [collapseWS, if_neg hw] at hc
      rcases List.mem_cons.mp hc with h | h
      · subst h
        simp only [Bool.not_eq_true] at hw
        exact Or.inr ⟨List.mem_cons_self _ _, hw⟩
      · rcases ih false c h with h' | h'
        · exact Or.inl h'
        · exact Or.inr ⟨List.mem_cons_of_mem _ h'.1, h'.2⟩

/-- The head of `collapseWS true s` is never whitespace. -/
lemma collapseWS_head_true (s : List Char) :
    ∀ c, (collapseWS true s).head? = some c → jsWhitespace c = false := by
  induction s with
  | nil => intro c hc; simp [collapseWS] at hc
  | cons a rest ih =>
    intro c hc
    by_cases hw : jsWhitespace a
    · rw [collapseWS, if_pos hw, if_pos rfl] at hc
      exact ih c hc
    · rw [collapseWS, if_neg hw] at hc
      simp only [List.head?_cons, Option.some.injEq] at hc
      subst hc
      simp only [Bool.not_eq_true] at hw
      exact hw

/-- Collapsed strings have no two adjacent spaces. -/
lemma collapseWS_chain (s : List Char) :
    ∀ b, List.Chain' spacedApart (collapseWS b s) := by
  induction s with
  | nil => intro b; simp [collapseWS]
  | cons a rest ih =>
    intro b
    by_cases hw : jsWhitespace a
    · rcases b with _ | _
      · rw [collapseWS, if_pos hw, if_neg (by simp)]
        rw [List.chain'_cons']
        refine ⟨?_, ih true⟩
        intro y hy
        intro ⟨_, hy'⟩
        have := collapseWS_head_true rest y hy
        rw [hy'] at this
        rw [space_ws] at this
        exact Bool.noConfusion this
      · rw [collapseWS, if_pos hw, if_pos rfl]
        exact ih true
    · rw [collapseWS, if_neg hw]
      rw [List.chain'_cons']
      refine ⟨?_, ih false⟩
      intro y _
      intro ⟨ha, _⟩
      rw [ha, space_ws] at hw
      exact hw rfl

/-- On a string already in normal form, `collapseWS` is the identity. -/
lemma collapseWS_fix (s : List Char)
    (hws : ∀ c ∈ s, jsWhitespace c = true → c = ' ')
    (hchain : List.Chain' spacedApart s) :
    collapseWS false s = s ∧ (s.head? ≠ some ' ' → collapseWS true s = s) := by
  induction s with
  | nil => exact ⟨rfl, fun _ => rfl⟩
  | cons a rest ih =>
    have hchain' := List.chain'_cons'.mp hchain
    have ihr := ih (fun c hc h => hws c (List.mem_cons_of_mem _ hc) h) hchain'.2
    by_cases hw : jsWhitespace a
    · have ha : a = ' ' := hws a (List.mem_cons_self _ _) hw
      subst ha
      have hresthead : rest.head? ≠ some ' ' := by
        intro h
        exact hchain'.1 ' ' h ⟨rfl, rfl⟩
      constructor
      · rw [collapseWS, if_pos hw, if_neg (by simp), ihr.2 hresthead]
      · intro h
        exact (h rfl).elim
    · constructor
      · rw [collapseWS, if_neg hw, ihr.1]
      · intro _
        rw [collapseWS, if_neg hw, ihr.1]

lemma head?_dropWhile (p : Char → Bool) (l : List Char) :
    ∀ c, ((l.dropWhile p).head? = some c) → p c = false := by
  induction l with
  | nil => intro c hc; simp [List.dropWhile] at hc
  | cons a rest ih =>
    intro c hc
    by_cases hp : p a
    · rw [List.dropWhile_cons, if_pos hp] at hc
      exact ih c hc
    · rw [List.dropWhile_cons, if_neg hp] at hc
      simp only [List.head?_cons, Option.some.injEq] at hc
      subst hc
      simp only [Bool.not_eq_true] at hp
      exact hp

lemma dropWhile_eq_self (p : Char → Bool) (l : List Char)
    (h : ∀ c, l.head? = some c → p c = false) : l.dropWhile p = l := by
  cases l with
  | nil => rfl
  | cons a rest => rw [List.dropWhile_cons, if_neg (by simp [h a rfl])]

lemma chain'_dropWhile (p : Char → Bool) (l : List Char)
    (h : List.Chain' spacedApart l) : List.Chain' spacedApart (l.dropWhile p) := by
  induction l with
  | nil => simp
  | cons a rest ih =>
    by_cases hp : p a
    · rw [List.dropWhile_cons, if_pos hp]
      exact ih h.tail
    · rw [List.dropWhile_cons, if_neg hp]
      exact h

lemma chain'_spaced_reverse (l : List Char) (h : List.Chain' spacedApart l) :
    List.Chain' spacedApart l.reverse := by
  rw [List.chain'_reverse]
  exact h.imp fun a b hab => by
    intro ⟨h1, h2⟩
    exact hab ⟨h2, h1⟩

lemma trimWS_mem (s : List Char) : ∀ c ∈ trimWS s, c ∈ s := by
  intro c hc
  unfold trimWS at hc
  rw [List.mem_reverse] at hc
  have hc2 := (List.dropWhile_suffix jsWhitespace).sublist.mem hc
  rw [List.mem_reverse] at hc2
  exact (List.dropWhile_suffix jsWhitespace).sublist.mem hc2

lemma trimWS_chain (s : List Char) (h : List.Chain' spacedApart s) :
    List.Chain' spacedApart (trimWS s) := by
  unfold trimWS
  exact chain'_spaced_reverse _
    (chain'_dropWhile _ _ (chain'_spaced_reverse _ (chain'_dropWhile _ _ h)))

lemma trimWS_getLast (s : List Char) :
    ∀ c, (trimWS s).getLast? = some c → jsWhitespace c = false := by
  intro c hc
  unfold trimWS at hc
  rw [List.getLast?_reverse] at hc
  exact head?_dropWhile _ _ c hc

lemma trimWS_head (s : List Char) :
    ∀ c, (trimWS s).head? = some c → jsWhitespace c = false := by
  intro c hc
  unfold trimWS at hc
  rw [List.head?_reverse] at hc
  have hsuff : (s.dropWhile jsWhitespace).reverse.dropWhile jsWhitespace <:+
      (s.dropWhile jsWhitespace).reverse := List.dropWhile_suffix _
  obtain ⟨pre, hpre⟩ := hsuff
  have hBne : (s.dropWhile jsWhitespace).reverse.dropWhile jsWhitespace ≠ [] := by
    intro h
    rw [h] at hc
    simp at hc
  have h1 := List.getLast?_append_of_ne_nil pre hBne
  rw [hpre, List.getLast?_reverse, hc] at h1
  exact head?_dropWhile _ _ c h1

lemma trimWS_fix (s : List Char)
    (hh : ∀ c, s.head? = some c → jsWhitespace c = false)
    (hl : ∀ c, s.getLast? = some c → jsWhitespace c = false) : trimWS s = s := by
  unfold trimWS
  rw [dropWhile_eq_self _ _ hh]
  rw [dropWhile_eq_self _ _ (fun c hc => hl c (by rwa [List.head?_reverse] at hc))]
  exact List.reverse_reverse s

/-- C9: `normalizeLabel` is idempotent, and its output consists only of
lowercase ASCII letters, digits and single interior spaces, with no
leading or trailing whitespace. -/
theorem normalizeLabel_idempotent (s : List Char) :
    normalizeLabel (normalizeLabel s) = normalizeLabel s
    ∧ (∀ c ∈ normalizeLabel s, lowerAlnum c = true ∨ c = ' ')
    ∧ List.Chain' spacedApart (normalizeLabel s)
    ∧ (∀ c, (normalizeLabel s).head? = some c → jsWhitespace c = false)
    ∧ (∀ c, (normalizeLabel s).getLast? = some c → jsWhitespace c = false) := by
  have halpha : ∀ c ∈ normalizeLabel s, lowerAlnum c = true ∨ c = ' ' := by
    intro c hc
    unfold normalizeLabel at hc
    have hc1 := trimWS_mem _ c hc
    rcases collapseWS_mem _ false c hc1 with h | ⟨hmem, hnw⟩
    · exact Or.inr h
    · rcases replaceNonAlnum_chars _ c hmem with h | h
      · exact Or.inr h
      · exact Or.inl (not_ws_kept_lowerAlnum c hnw h)
  have hchain : List.Chain' spacedApart (normalizeLabel s) := by
    unfold normalizeLabel
    exact trimWS_chain _ (collapseWS_chain _ false)
  have hhead : ∀ c, (normalizeLabel s).head? = some c → jsWhitespace c = false := by
    unfold normalizeLabel
    exact trimWS_head _
  have hlast : ∀ c, (normalizeLabel s).getLast? = some c → jsWhitespace c = false := by
    unfold normalizeLabel
    exact trimWS_getLast _
  refine ⟨?_, halpha, hchain, hhead, hlast⟩
  set t := normalizeLabel s with ht
  have step1 : t.map jsToLower = t := by
    have : ∀ c ∈ t, jsToLower c = id c := by
      intro c hc
      rcases halpha c hc with h | h
      · simpa using lowerAlnum_toLower c h
      · subst h; decide
    rw [List.map_congr_left this, List.map_id]
  have step2 : replaceNonAlnum t = t := by
    unfold replaceNonAlnum
    have : ∀ c ∈ t, (if keptChar c then c else ' ') = id c := by
      intro c hc
      rcases halpha c hc with h | h
      · simp [lowerAlnum_kept c h]
      · subst h; decide
    rw [List.map_congr_left this, List.map_id]
  have step3 : collapseWS false t = t := by
    refine (collapseWS_fix t ?_ hchain).1
    intro c hc hw
    rcases halpha c hc with h | h
    · rw [lowerAlnum_not_ws c h] at hw
      exact Bool.noConfusion hw
    · exact h
  have step4 : trimWS t = t := trimWS_fix t hhead hlast
  show trimWS (collapseWS false (replaceNonAlnum (t.map jsToLower))) = t
  rw [step1, step2, step3, step4]

/-- Witness for C9 at a concrete label: accents and punctuation become
single spaces, the result is trimmed, and renormalizing is the identity. -/
theorem normalizeLabel_idempotent_witness :
    normalizeLabel (("  Years of C++ Experience?  ").data) = ("years of c experience").data
    ∧ normalizeLabel (normalizeLabel (("  Years of C++ Experience?  ").data)) =
        normalizeLabel (("  Years of C++ Experience?  ").data) := by
  refine ⟨by decide, (normalizeLabel_idempotent (("  Years of C++ Experience?  ").data)).1⟩

/-! ## C3 — `findAnswer`: fuzzy threshold, substring fallback, null -/

lemma bestIdxAux_ge (rs : List ℚ) : ∀ (i bi : Nat) (br : ℚ),
    br ≤ (bestIdxAux rs i bi br).2 ∧ ∀ r ∈ rs, r ≤ (bestIdxAux rs i bi br).2 := by
  induction rs with
  | nil => intro i bi br; exact ⟨le_refl _, by simp⟩
  | cons r rest ih =>
    intro i bi br
    rw [bestIdxAux]
    by_cases h : br < r
    · rw [if_pos h]
      have := ih (i + 1) i r
      refine ⟨le_of_lt (lt_of_lt_of_le h this.1), ?_⟩
      intro x hx
      rcases List.mem_cons.mp hx with hx | hx
      · subst hx; exact this.1
      · exact this.2 x hx
    · rw [if_neg h]
      have := ih (i + 1) bi br
      refine ⟨this.1, ?_⟩
      intro x hx
      rcases List.mem_cons.mp hx with hx | hx
      · subst hx; exact le_trans (not_lt.mp h) this.1
      · exact this.2 x hx

lemma bestIdxAux_cases (rs : List ℚ) : ∀ (i bi : Nat) (br : ℚ),
    bestIdxAux rs i bi br = (bi, br) ∨
    ∃ k, ∃ h : k < rs.length, bestIdxAux rs i bi br = (i + k, rs.get ⟨k, h⟩) := by
  induction rs with
  | nil => intro i bi br; exact Or.inl rfl
  | cons r rest ih =>
    intro i bi br
    rw [bestIdxAux]
    by_cases h : br < r
    · rw [if_pos h]
      right
      rcases ih (i + 1) i r with h' | ⟨k, hk, h'⟩
      · exact ⟨0, by simp, by simpa using h'⟩
      · refine ⟨k + 1, by simpa using Nat.succ_lt_succ hk, ?_⟩
        rw [h']
        have hik : i + 1 + k = i + (k + 1) := by omega
        rw [hik]
        rfl
    · rw [if_neg h]
      rcases ih (i + 1) bi br with h' | ⟨k, hk, h'⟩
      · exact Or.inl h'
      · refine Or.inr ⟨k + 1, by simpa using Nat.succ_lt_succ hk, ?_⟩
        rw [h']
        have hik : i + 1 + k = i + (k + 1) := by omega
        rw [hik]
        rfl

/-- `findBestMatch` returns a valid index, its rating is the rating of the
key at that index, and no key rates strictly higher. -/
lemma findBestMatch_spec (label : List Char) (keys : List (List Char)) (hne : keys ≠ []) :
    (findBestMatch label keys).1 < keys.length
    ∧ (findBestMatch label keys).2 =
        compareTwoStrings label (keys.getD (findBestMatch label keys).1 [])
    ∧ ∀ k ∈ keys, compareTwoStrings label k ≤ (findBestMatch label keys).2 := by
  cases keys with
  | nil => exact absurd rfl hne
  | cons k0 krest =>
    have hdef : findBestMatch label (k0 :: krest) =
        bestIdxAux (krest.map (compareTwoStrings label)) 1 0 (compareTwoStrings label k0) := by
      rfl
    have hge := bestIdxAux_ge (krest.map (compareTwoStrings label)) 1 0
      (compareTwoStrings label k0)
    have hmax : ∀ k ∈ k0 :: krest,
        compareTwoStrings label k ≤ (findBestMatch label (k0 :: krest)).2 := by
      intro k hk
      rw [hdef]
      rcases List.mem_cons.mp hk with hk | hk
      · subst hk; exact hge.1
      · exact hge.2 _ (List.mem_map_of_mem _ hk)
    have hir : (findBestMatch label (k0 :: krest)).1 < (k0 :: krest).length
        ∧ (findBestMatch label (k0 :: krest)).2 =
            compareTwoStrings label
              ((k0 :: krest).getD (findBestMatch label (k0 :: krest)).1 []) := by
      rcases bestIdxAux_cases (krest.map (compareTwoStrings label)) 1 0
          (compareTwoStrings label k0) with hc | ⟨k, hk, hc⟩
      · rw [hdef, hc]
        exact ⟨Nat.succ_pos _, rfl⟩
      · have hk' : k < krest.length := by simpa using hk
        rw [hdef, hc]
        refine ⟨by simp only [List.length_cons]; omega, ?_⟩
        show (krest.map (compareTwoStrings label)).get ⟨k, hk⟩ =
          compareTwoStrings label ((k0 :: krest).getD (1 + k) [])
        have h1k : 1 + k = k + 1 := by omega
        rw [h1k, List.getD_cons_succ, List.getD_eq_getElem _ _ hk']
        simp
    exact ⟨hir.1, hir.2, hmax⟩

/-- With object keys unique (as in a JS object), looking an entry's key
back up in the association list lands on that entry. -/
lemma find?_key_of_nodup : ∀ (kb : List (List Char × String)),
    (kb.map Prod.fst).Nodup →
    ∀ (i : Nat) (h : i < kb.length),
      kb.find? (fun p => p.1 == (kb.get ⟨i, h⟩).1) = some (kb.get ⟨i, h⟩) := by
  intro kb
  induction kb with
  | nil => intro _ i h; exact absurd h (by simp)
  | cons p rest ih =>
    intro hnd i h
    have hnd' : (p.1 :: rest.map Prod.fst).Nodup := by simpa using hnd
    cases i with
    | zero =>
      rw [List.find?_cons_of_pos]
      · rfl
      · simp
    | succ n =>
      have hn : n < rest.length := by simpa using h
      have hget : ((p :: rest).get ⟨n + 1, h⟩) = rest.get ⟨n, hn⟩ := rfl
      have hentry : rest.get ⟨n, hn⟩ ∈ rest := rest.get_mem _ _
      have hne : ¬(p.1 == ((p :: rest).get ⟨n + 1, h⟩).1) = true := by
        rw [hget]
        simp only [beq_iff_eq]
        intro hcontr
        exact (List.nodup_cons.mp hnd').1
          (hcontr ▸ List.mem_map_of_mem Prod.fst hentry)
      have hstep : List.find? (fun q : List Char × String =>
          q.1 == ((p :: rest).get ⟨n + 1, h⟩).1) (p :: rest) =
          List.find? (fun q : List Char × String =>
          q.1 == ((p :: rest).get ⟨n + 1, h⟩).1) rest :=
        List.find?_cons_of_neg rest hne
      rw [hstep]
      simp only [hget]
      exact ih (List.nodup_cons.mp hnd').2 n hn

/-- C3: `findAnswer` accepts the best fuzzy match exactly at rating ≥ 0.6
(the threshold is `≥`, so rating 3/5 matches and anything below does not):
above threshold it returns the best-matching key's answer; below threshold
it returns the answer of the first key contained in the label or containing
it, and `null` when no such key exists. -/
theorem findAnswer_spec (label : List Char) (kb : List (List Char × String))
    (hne : kb ≠ []) (hnd : (kb.map Prod.fst).Nodup) :
    (∀ k ∈ kb.map Prod.fst,
        compareTwoStrings label k ≤ (findBestMatch label (kb.map Prod.fst)).2)
    ∧ (FUZZY_THRESHOLD ≤ (findBestMatch label (kb.map Prod.fst)).2 →
        ∃ h : (findBestMatch label (kb.map Prod.fst)).1 < kb.length,
          findAnswer label kb =
            some (kb.get ⟨(findBestMatch label (kb.map Prod.fst)).1, h⟩).2)
    ∧ ((findBestMatch label (kb.map Prod.fst)).2 < FUZZY_THRESHOLD →
        findAnswer label kb = (kb.find? fun p => containsEither label p.1).map Prod.snd
        ∧ ((∀ p ∈ kb, containsEither label p.1 = false) →
            findAnswer label kb = none)) := by
  have hkeysne : kb.map Prod.fst ≠ [] := by
    intro h
    exact hne (List.map_eq_nil_iff.mp h)
  have hspec := findBestMatch_spec label (kb.map Prod.fst) hkeysne
  refine ⟨hspec.2.2, ?_, ?_⟩
  · intro hth
    have hlt : (findBestMatch label (kb.map Prod.fst)).1 < kb.length := by
      simpa using hspec.1
    refine ⟨hlt, ?_⟩
    unfold findAnswer
    rw [if_neg (by simp [hne]), if_pos hth]
    have hkeyeq : (kb.map Prod.fst).getD (findBestMatch label (kb.map Prod.fst)).1 [] =
        (kb.get ⟨(findBestMatch label (kb.map Prod.fst)).1, hlt⟩).1 := by
      rw [List.getD_eq_getElem _ _ (by simpa using hlt)]
      simp
    simp only [hkeyeq]
    rw [find?_key_of_nodup kb hnd _ hlt]
    rfl
  · intro hth
    constructor
    · unfold findAnswer
      rw [if_neg (by simp [hne]), if_neg (not_le.mpr hth)]
    · intro hall
      unfold findAnswer
      rw [if_neg (by simp [hne]), if_neg (not_le.mpr hth)]
      rw [List.find?_eq_none.mpr]
      · rfl
      · intro p hp
        simp [hall p hp]

lemma compare_abcdxy : compareTwoStrings (("abcdef").data) (("abcdxy").data) = 3 / 5 := by
  rw [compareTwoStrings, if_neg (by decide), if_neg (by decide)]
  rw [show interCount (bigrams (stripWS (("abcdef").data)))
      (bigrams (stripWS (("abcdxy").data))) = 3 from by decide]
  rw [show (stripWS (("abcdef").data)).length + (stripWS (("abcdxy").data)).length - 2 = 10
      from by decide]
  norm_num

lemma compare_abcxyz : compareTwoStrings (("abcdef").data) (("abcxyz").data) = 2 / 5 := by
  rw [compareTwoStrings, if_neg (by decide), if_neg (by decide)]
  rw [show interCount (bigrams (stripWS (("abcdef").data)))
      (bigrams (stripWS (("abcxyz").data))) = 2 from by decide]
  rw [show (stripWS (("abcdef").data)).length + (stripWS (("abcxyz").data)).length - 2 = 10
      from by decide]
  norm_num

lemma fbm_single (label k : List Char) : findBestMatch label [k] = (0, compareTwoStrings label k) :=
  rfl

/-- Witness for C3, at both sides of the boundary: a key rating exactly
3/5 against the label is accepted and its answer returned; a key rating
below 3/5 with no containment either way yields `null`. -/
theorem findAnswer_spec_witness :
    (FUZZY_THRESHOLD ≤ (findBestMatch (("abcdef").data) [("abcdxy").data]).2
      ∧ findAnswer (("abcdef").data) [((("abcdxy").data), ("A"))] = some ("A"))
    ∧ ((findBestMatch (("abcdef").data) [("abcxyz").data]).2 < FUZZY_THRESHOLD
      ∧ findAnswer (("abcdef").data) [((("abcxyz").data), ("A"))] = none) := by
  have hth1 : FUZZY_THRESHOLD ≤ (findBestMatch (("abcdef").data) [("abcdxy").data]).2 := by
    rw [fbm_single]
    rw [show ((0 : Nat), compareTwoStrings (("abcdef").data) (("abcdxy").data)).2 =
        compareTwoStrings (("abcdef").data) (("abcdxy").data) from rfl]
    rw [compare_abcdxy, FUZZY_THRESHOLD]
  have hth2 : (findBestMatch (("abcdef").data) [("abcxyz").data]).2 < FUZZY_THRESHOLD := by
    rw [fbm_single]
    rw [show ((0 : Nat), compareTwoStrings (("abcdef").data) (("abcxyz").data)).2 =
        compareTwoStrings (("abcdef").data) (("abcxyz").data) from rfl]
    rw [compare_abcxyz, FUZZY_THRESHOLD]
    norm_num
  obtain ⟨hlt, heq⟩ :=
    (findAnswer_spec (("abcdef").data) [((("abcdxy").data), ("A"))]
      (by decide) (by decide)).2.1 (by exact hth1)
  have h2 := (findAnswer_spec (("abcdef").data) [((("abcxyz").data), ("A"))]
      (by decide) (by decide)).2.2 (by exact hth2)
  refine ⟨⟨hth1, ?_⟩, hth2, h2.2 (by decide)⟩
  rw [heq]
  rfl

/-! ## C8 — unmatched select: first non-placeholder option fallback

The fallback branch of `fillForm` runs only when `optionTexts.length > 1`
(form-filler.js line 370), so a visible one-option select with no
knowledge-base answer is left without a selection even though a
non-placeholder option exists — the claim as stated fails there.
-/

/-- Counterexample to C8 as stated: a visible single-option select
(`<option value="">Yes</option>`, so the already-selected skip does not
fire) with no answer is left unset although the non-placeholder option
`Yes` exists. -/
theorem selectDecision_single_option_counterexample :
    selectDecision ⟨true, [], ("Yes").data, [("Yes").data]⟩ none = SelectAction.leftUnset
    ∧ (("Yes").data ∈ [("Yes").data] ∧ realOption (("Yes").data) = true) := by
  refine ⟨by decide, by decide, by decide⟩

/-- C8 (amended): for every visible select with more than one option whose
label yields no knowledge-base answer and which is not skipped as already
selected, the filler selects the first option whose trimmed text is
non-empty and not a placeholder; in particular it is not left unset when
such an option exists. -/
theorem selectDecision_fallback (f : SelectField) (i : Nat)
    (hvis : f.visible = true)
    (hsel : f.selectedValue.isEmpty = true ∨ isPlaceholder f.selectedValue = true
      ∨ isPlaceholder f.selectedText = true)
    (hlen : 1 < f.optionTexts.length)
    (hfind : f.optionTexts.findIdx? realOption = some i) :
    selectDecision f none = SelectAction.choose i
    ∧ selectDecision f none ≠ SelectAction.leftUnset := by
  have hskip : ¬((!f.selectedValue.isEmpty && !isPlaceholder f.selectedValue
      && !isPlaceholder f.selectedText) = true) := by
    rcases hsel with h | h | h <;> simp [h]
  have hmain : selectDecision f none = SelectAction.choose i := by
    unfold selectDecision
    rw [if_neg (by simp [hvis]), if_neg hskip, if_pos hlen, hfind]
  exact ⟨hmain, by rw [hmain]; exact fun hcontr => SelectAction.noConfusion hcontr⟩

/-- Witness for C8 (amended) at the spec's own scenario: options
`["-- Select --", "Yes", "No"]` with no answer select index 1 (`Yes`). -/
theorem selectDecision_fallback_witness :
    selectDecision ⟨true, [], ("Select an option").data,
        [("Select an option").data, ("Yes").data, ("No").data]⟩ none = SelectAction.choose 1 := by
  exact (selectDecision_fallback
    ⟨true, [], ("Select an option").data,
      [("Select an option").data, ("Yes").data, ("No").data]⟩ 1
    (by decide) (Or.inl (by decide)) (by decide) (by decide)).1

/-! ## C4 — modal cycle detection (fingerprint recurrence)

The guard `if (fingerprint && seenFingerprints.has(fingerprint))`
(linkedin.js line 584) never fires for an empty fingerprint (a step with
no visible labels), so the claim as stated — *every* recurring fingerprint
is flagged — fails on a label-less step; non-empty fingerprints are
flagged at their second occurrence, before the step is processed again.
-/

/-- The step stream ∅ → {b} → ∅ (submit): the empty fingerprint recurs. -/
def exC4Steps : Nat → ModalStep := fun n =>
  match n with
  | 0 => ⟨[], .next⟩
  | 1 => ⟨[("b")], .next⟩
  | _ => ⟨[], .submitted⟩

/-- Counterexample to C4 as stated: in the sequence A, B, A with A the
label-less step, the fingerprint of step 0 recurs at step 2, yet the
attempt submits after processing all three steps instead of terminating
with an error at the second occurrence. -/
theorem modal_cycle_empty_counterexample :
    stepFingerprint (exC4Steps 0).labels = stepFingerprint (exC4Steps 2).labels
    ∧ runModal exC4Steps = ModalOutcome.submitted 3
    ∧ (runModal exC4Steps).isSubmitted = true := by
  refine ⟨rfl, by decide, by decide⟩

/-- C4 (amended): each rendered step is fingerprinted by the sorted list
of its visible question labels; whenever a non-empty fingerprint recurs
(and the loop reaches the recurrence), the attempt terminates with the
job-level `Modal cycled` error at the second occurrence, with exactly the
earlier steps processed — the repeated step is not processed again. -/
theorem modal_cycle_detected (steps : Nat → ModalStep) (i j : Nat)
    (hij : i < j) (hj : j < MAX_STEPS_LINKEDIN)
    (hnext : ∀ k, k < j → (steps k).result = .next)
    (hnodup : ∀ k2, k2 < j → ∀ k1, k1 < k2 →
        stepFingerprint (steps k1).labels = stepFingerprint (steps k2).labels →
        stepFingerprint (steps k2).labels = "")
    (hfp : stepFingerprint (steps i).labels = stepFingerprint (steps j).labels)
    (hfpne : stepFingerprint (steps j).labels ≠ "") :
    runModal steps = ModalOutcome.cycled j
    ∧ (ModalOutcome.cycled j).processed = j
    ∧ (ModalOutcome.cycled j).isSubmitted = false := by
  have main : ∀ d c seen, c + d = j →
      (∀ s, s ∈ seen ↔ (s ≠ "" ∧ ∃ k, k < c ∧ stepFingerprint (steps k).labels = s)) →
      runModalAux steps seen c (MAX_STEPS_LINKEDIN - c) = ModalOutcome.cycled j := by
    intro d
    induction d with
    | zero =>
      intro c seen hc hseen
      have hcj : c = j := by omega
      subst hcj
      obtain ⟨r, hr⟩ : ∃ r, MAX_STEPS_LINKEDIN - c = r + 1 :=
        ⟨MAX_STEPS_LINKEDIN - c - 1, by unfold MAX_STEPS_LINKEDIN at *; omega⟩
      rw [hr, runModalAux]
      rw [if_pos]
      exact ⟨hfpne, (hseen _).mpr ⟨hfpne, i, hij, hfp⟩⟩
    | succ d ih =>
      intro c seen hc hseen
      have hcj : c < j := by omega
      obtain ⟨r, hr⟩ : ∃ r, MAX_STEPS_LINKEDIN - c = r + 1 :=
        ⟨MAX_STEPS_LINKEDIN - c - 1, by unfold MAX_STEPS_LINKEDIN at *; omega⟩
      rw [hr, runModalAux]
      rw [if_neg]
      · rw [hnext c hcj]
        have hr' : r = MAX_STEPS_LINKEDIN - (c + 1) := by
          unfold MAX_STEPS_LINKEDIN at *; omega
        rw [hr']
        apply ih (c + 1) _ (by omega)
        intro s
        by_cases hfpc : stepFingerprint (steps c).labels = ""
        · rw [if_neg (by simpa using hfpc)]
          rw [hseen s]
          constructor
          · rintro ⟨hs, k, hk, hks⟩
            exact ⟨hs, k, by omega, hks⟩
          · rintro ⟨hs, k, hk, hks⟩
            refine ⟨hs, k, ?_, hks⟩
            rcases Nat.lt_succ_iff_lt_or_eq.mp hk with h | h
            · exact h
            · subst h
              rw [hks] at hfpc
              exact absurd hfpc hs
        · rw [if_pos (by simpa using hfpc)]
          constructor
          · intro hs
            rcases List.mem_cons.mp hs with h | h
            · subst h
              exact ⟨hfpc, c, by omega, rfl⟩
            · obtain ⟨hs', k, hk, hks⟩ := (hseen s).mp h
              exact ⟨hs', k, by omega, hks⟩
          · rintro ⟨hs, k, hk, hks⟩
            rcases Nat.lt_succ_iff_lt_or_eq.mp hk with h | h
            · exact List.mem_cons_of_mem _ ((hseen s).mpr ⟨hs, k, h, hks⟩)
            · subst h
              exact hks ▸ List.mem_cons_self _ _
      · rintro ⟨hne, hmem⟩
        obtain ⟨-, k, hk, hks⟩ := (hseen _).mp hmem
        have := hnodup c hcj k hk hks
        exact hne this
  refine ⟨?_, rfl, rfl⟩
  have h0 := main j 0 [] (by omega) (by simp)
  simpa [runModal] using h0

/-- Witness for C4 (amended): label streams a, b, a — the run is flagged
`Cycled` at step index 2 with two steps processed. -/
theorem modal_cycle_detected_witness :
    runModal (fun n => match n with
      | 0 => (⟨[("a")], .next⟩ : ModalStep)
      | 1 => ⟨[("b")], .next⟩
      | _ => ⟨[("a")], .next⟩) = ModalOutcome.cycled 2 := by
  exact (modal_cycle_detected (fun n => match n with
      | 0 => (⟨[("a")], .next⟩ : ModalStep)
      | 1 => ⟨[("b")], .next⟩
      | _ => ⟨[("a")], .next⟩) 0 2
    (by omega) (by decide) (by decide) (by decide) (by decide) (by decide)).1

/-! ## C5 — absolute step ceilings -/

lemma runModalAux_processed (steps : Nat → ModalStep) :
    ∀ r c seen, (runModalAux steps seen c r).processed ≤ c + r := by
  intro r
  induction r with
  | zero => intro c seen; simp [runModalAux, ModalOutcome.processed]
  | succ r ih =>
    intro c seen
    rw [runModalAux]
    by_cases hcy : stepFingerprint (steps c).labels ≠ "" ∧
        stepFingerprint (steps c).labels ∈ seen
    · rw [if_pos hcy]
      show c ≤ c + (r + 1)
      omega
    · rw [if_neg hcy]
      cases hres : (steps c).result
      · show (runModalAux steps (if stepFingerprint (steps c).labels ≠ ""
          then stepFingerprint (steps c).labels :: seen else seen) (c + 1) r).processed ≤
            c + (r + 1)
        have h := ih (c + 1) (if stepFingerprint (steps c).labels ≠ ""
          then stepFingerprint (steps c).labels :: seen else seen)
        omega
      · show c + 1 ≤ c + (r + 1); omega
      · show c + 1 ≤ c + (r + 1); omega
      · show c + 1 ≤ c + (r + 1); omega

lemma runModalAux_no_submit (steps : Nat → ModalStep) :
    ∀ r c seen, (∀ k, c ≤ k → k < c + r → (steps k).result ≠ .submitted) →
      (runModalAux steps seen c r).isSubmitted = false := by
  intro r
  induction r with
  | zero => intro c seen _; simp [runModalAux, ModalOutcome.isSubmitted]
  | succ r ih =>
    intro c seen hns
    rw [runModalAux]
    by_cases hcy : stepFingerprint (steps c).labels ≠ "" ∧
        stepFingerprint (steps c).labels ∈ seen
    · rw [if_pos hcy]; rfl
    · rw [if_neg hcy]
      cases hres : (steps c).result
      · exact ih (c + 1) _ fun k hk1 hk2 => hns k (by omega) (by omega)
      · exact absurd hres (hns c (le_refl c) (by omega))
      · rfl
      · rfl

lemma runIndeedFormAux_processed (steps : Nat → IndeedStepResult) :
    ∀ r c, (runIndeedFormAux steps c r).processed ≤ c + r := by
  intro r
  induction r with
  | zero => intro c; simp [runIndeedFormAux, IndeedFormOutcome.processed]
  | succ r ih =>
    intro c
    rw [runIndeedFormAux]
    cases hres : steps c
    · show (runIndeedFormAux steps (c + 1) r).processed ≤ c + (r + 1)
      have h := ih (c + 1)
      omega
    · show c + 1 ≤ c + (r + 1); omega
    · show c + 1 ≤ c + (r + 1); omega

lemma runIndeedFormAux_no_submit (steps : Nat → IndeedStepResult) :
    ∀ r c, (∀ k, c ≤ k → k < c + r → steps k ≠ .submitted) →
      (runIndeedFormAux steps c r).isSubmitted = false := by
  intro r
  induction r with
  | zero => intro c _; simp [runIndeedFormAux, IndeedFormOutcome.isSubmitted]
  | succ r ih =>
    intro c hns
    rw [runIndeedFormAux]
    cases hres : steps c
    · exact ih (c + 1) fun k hk1 hk2 => hns k (by omega) (by omega)
    · exact absurd hres (hns c (le_refl c) (by omega))
    · rfl

/-- C5: the step ceilings are constants in the range 8–12 (12 for
LinkedIn, 8 for Indeed); each per-job step loop processes at most that
many steps; and any step sequence that never reaches a submit action
within the ceiling leaves the job unsubmitted — every non-submitted
outcome of the loop is a thrown job-level `Error` in the module. -/
theorem step_ceiling (steps : Nat → ModalStep) (isteps : Nat → IndeedStepResult) :
    (8 ≤ MAX_STEPS_LINKEDIN ∧ MAX_STEPS_LINKEDIN ≤ 12
      ∧ 8 ≤ MAX_STEPS_INDEED ∧ MAX_STEPS_INDEED ≤ 12)
    ∧ (runModal steps).processed ≤ MAX_STEPS_LINKEDIN
    ∧ ((∀ k, k < MAX_STEPS_LINKEDIN → (steps k).result ≠ .submitted) →
        (runModal steps).isSubmitted = false)
    ∧ (runIndeedForm isteps).processed ≤ MAX_STEPS_INDEED
    ∧ ((∀ k, k < MAX_STEPS_INDEED → isteps k ≠ .submitted) →
        (runIndeedForm isteps).isSubmitted = false) := by
  refine ⟨by decide, ?_, ?_, ?_, ?_⟩
  · have := runModalAux_processed steps MAX_STEPS_LINKEDIN 0 []
    simpa [runModal] using this
  · intro hns
    have := runModalAux_no_submit steps MAX_STEPS_LINKEDIN 0 []
      (fun k hk1 hk2 => hns k (by omega))
    simpa [runModal] using this
  · have := runIndeedFormAux_processed isteps MAX_STEPS_INDEED 0
    simpa [runIndeedForm] using this
  · intro hns
    have := runIndeedFormAux_no_submit isteps MAX_STEPS_INDEED 0
      (fun k hk1 hk2 => hns k (by omega))
    simpa [runIndeedForm] using this

/-- Witness for C5: the all-`next` streams exceed both ceilings, process
exactly 12 (LinkedIn) and 8 (Indeed) steps, and end in the exceeded-steps
error, never submitting. -/
theorem step_ceiling_witness :
    runModal (fun _ => (⟨[], .next⟩ : ModalStep)) = ModalOutcome.exceededSteps 12
    ∧ (runModal (fun _ => (⟨[], .next⟩ : ModalStep))).isSubmitted = false
    ∧ runIndeedForm (fun _ => .next) = IndeedFormOutcome.exceededSteps 8
    ∧ (runIndeedForm (fun _ => .next)).isSubmitted = false := by
  have h := step_ceiling (fun _ => (⟨[], .next⟩ : ModalStep)) (fun _ => .next)
  exact ⟨by decide, h.2.2.1 (by decide), by decide, h.2.2.2.2 (by decide)⟩

/-- Witness for C10 at `min = 5`, `max = 15`: a single accepted draw and a
three-sample averaged delay both land in `[5, 15]`. -/
theorem randomInt_normalDelay_in_range_witness :
    (5 : Int) ≤ 15
    ∧ (5 : Int) ≤ randomInt 5 15 37 ∧ randomInt 5 15 37 ≤ 15
    ∧ (5 : Int) ≤ normalDelay 5 15 [0, 5, 10] ∧ normalDelay 5 15 [0, 5, 10] ≤ 15 := by
  have h := randomInt_normalDelay_in_range 5 15 (by decide)
  exact ⟨by decide, (h.1 37).1, (h.1 37).2,
    (h.2 [0, 5, 10] (by decide)).1, (h.2 [0, 5, 10] (by decide)).2⟩

/-! ## C6 — retry supervision

LinkedIn retries by `cardIdx--` (linkedin.js line 738): the same card index
is re-visited immediately, not requeued at the back of the batch — the
claim's "requeue at the back" holds only for Indeed
(`cardsToProcess.push(card)`, indeed.js line 397). The retry bound and the
single terminal error record hold for both.
-/

lemma runJobAuxL_attempts (script : Nat → AttemptResult) :
    ∀ (remaining attemptIdx : Nat),
      (runJobAuxL script attemptIdx remaining).attempts ≤ attemptIdx + remaining + 1 := by
  intro remaining
  induction remaining with
  | zero =>
    intro attemptIdx
    rw [runJobAuxL]
    cases script attemptIdx with
    | exn b => cases b <;> simp [JobTerm.attempts]
    | _ => simp [JobTerm.attempts]
  | succ r ih =>
    intro attemptIdx
    rw [runJobAuxL]
    cases script attemptIdx with
    | exn b =>
      cases b
      · have h := ih (attemptIdx + 1)
        show (runJobAuxL script (attemptIdx + 1) r).attempts ≤ attemptIdx + (r + 1) + 1
        omega
      · show attemptIdx + 1 ≤ attemptIdx + (r + 1) + 1; omega
    | completed => show attemptIdx + 1 ≤ attemptIdx + (r + 1) + 1; omega
    | skipNoRecord => show attemptIdx + 1 ≤ attemptIdx + (r + 1) + 1; omega
    | skipRecorded b => show attemptIdx + 1 ≤ attemptIdx + (r + 1) + 1; omega

lemma runJobAuxL_all_fail (script : Nat → AttemptResult) :
    ∀ (remaining attemptIdx : Nat),
      (∀ k, attemptIdx ≤ k → k ≤ attemptIdx + remaining → script k = .exn false) →
      runJobAuxL script attemptIdx remaining = .erroredT (attemptIdx + remaining + 1) := by
  intro remaining
  induction remaining with
  | zero =>
    intro attemptIdx h
    rw [runJobAuxL, h attemptIdx (le_refl _) (by omega)]
  | succ r ih =>
    intro attemptIdx h
    rw [runJobAuxL, h attemptIdx (le_refl _) (by omega)]
    show runJobAuxL script (attemptIdx + 1) r = .erroredT (attemptIdx + (r + 1) + 1)
    rw [ih (attemptIdx + 1) (fun k hk1 hk2 => h k (by omega) (by omega))]
    congr 1
    omega

lemma runJobAuxL_succeeds (script : Nat → AttemptResult) :
    ∀ (k remaining attemptIdx : Nat), k ≤ remaining →
      (∀ m, attemptIdx ≤ m → m < attemptIdx + k → script m = .exn false) →
      script (attemptIdx + k) = .completed →
      runJobAuxL script attemptIdx remaining = .submittedT (attemptIdx + k + 1) := by
  intro k
  induction k with
  | zero =>
    intro remaining attemptIdx _ _ hdone
    cases remaining with
    | zero => rw [runJobAuxL]; rw [show attemptIdx + 0 = attemptIdx from rfl] at hdone; rw [hdone]
    | succ r => rw [runJobAuxL]; rw [show attemptIdx + 0 = attemptIdx from rfl] at hdone; rw [hdone]
  | succ k ih =>
    intro remaining attemptIdx hk hfail hdone
    obtain ⟨r, rfl⟩ : ∃ r, remaining = r + 1 := ⟨remaining - 1, by omega⟩
    rw [runJobAuxL, hfail attemptIdx (le_refl _) (by omega)]
    show runJobAuxL script (attemptIdx + 1) r = .submittedT (attemptIdx + (k + 1) + 1)
    have := ih r (attemptIdx + 1) (by omega)
      (fun m hm1 hm2 => hfail m (by omega) (by omega))
      (by rw [show attemptIdx + 1 + k = attemptIdx + (k + 1) from by omega]; exact hdone)
    rw [this]
    congr 1
    omega

/-- Count of ledger rows equal to a given row. -/
def rowCount (rows : List LedgerRow) (r : LedgerRow) : Nat := rows.count r

section LoopEquations

variable (script : String → Nat → AttemptResult) (maxRetries : Nat) (dryRun : Bool)
variable (db0 recs : List LedgerRow) (j0 : String) (rest : List String) (tr : List String)

lemma linkedinLoop_nil :
    linkedinLoop script maxRetries dryRun db0 [] recs tr = ⟨recs, tr, false⟩ := by
  rw [linkedinLoop]

lemma linkedinLoop_applied (hap : hasAppliedRows (db0 ++ recs) j0 = true) :
    linkedinLoop script maxRetries dryRun db0 (j0 :: rest) recs tr =
      linkedinLoop script maxRetries dryRun db0 rest
        (recs ++ [(j0, Status.already_applied)]) tr := by
  rw [linkedinLoop, if_pos hap]

lemma linkedinLoop_submitted (a : Nat) (hap : hasAppliedRows (db0 ++ recs) j0 = false)
    (hterm : runJobL (script j0) maxRetries = .submittedT a) :
    linkedinLoop script maxRetries dryRun db0 (j0 :: rest) recs tr =
      linkedinLoop script maxRetries dryRun db0 rest
        (recs ++ [(j0, if dryRun then Status.dry_run else Status.submitted)])
        (tr ++ List.replicate a j0) := by
  rw [linkedinLoop, if_neg (by simp [hap]), hterm]

lemma linkedinLoop_skipNoRec (a : Nat) (hap : hasAppliedRows (db0 ++ recs) j0 = false)
    (hterm : runJobL (script j0) maxRetries = .skippedNoRec a) :
    linkedinLoop script maxRetries dryRun db0 (j0 :: rest) recs tr =
      linkedinLoop script maxRetries dryRun db0 rest recs (tr ++ List.replicate a j0) := by
  rw [linkedinLoop, if_neg (by simp [hap]), hterm]

lemma linkedinLoop_skipRec (b : Bool) (a : Nat) (hap : hasAppliedRows (db0 ++ recs) j0 = false)
    (hterm : runJobL (script j0) maxRetries = .skippedRec b a) :
    linkedinLoop script maxRetries dryRun db0 (j0 :: rest) recs tr =
      linkedinLoop script maxRetries dryRun db0 rest
        (recs ++ [(j0, if b then Status.already_applied else Status.skipped)])
        (tr ++ List.replicate a j0) := by
  rw [linkedinLoop, if_neg (by simp [hap]), hterm]

lemma linkedinLoop_errored (a : Nat) (hap : hasAppliedRows (db0 ++ recs) j0 = false)
    (hterm : runJobL (script j0) maxRetries = .erroredT a) :
    linkedinLoop script maxRetries dryRun db0 (j0 :: rest) recs tr =
      linkedinLoop script maxRetries dryRun db0 rest
        (recs ++ [(j0, Status.error)]) (tr ++ List.replicate a j0) := by
  rw [linkedinLoop, if_neg (by simp [hap]), hterm]

lemma linkedinLoop_blocked (a : Nat) (hap : hasAppliedRows (db0 ++ recs) j0 = false)
    (hterm : runJobL (script j0) maxRetries = .blockedT a) :
    linkedinLoop script maxRetries dryRun db0 (j0 :: rest) recs tr =
      ⟨recs ++ [blockRow], tr ++ List.replicate a j0, true⟩ := by
  rw [linkedinLoop, if_neg (by simp [hap]), hterm]

end LoopEquations

lemma rowCount_append_other (recs : List LedgerRow) (r r' : LedgerRow) (h : r' ≠ r) :
    rowCount (recs ++ [r']) r = rowCount recs r := by
  simp only [rowCount, List.count_append, List.count_singleton]
  simp [beq_false_of_ne h]

lemma rowCount_append_same (recs : List LedgerRow) (r : LedgerRow) :
    rowCount (recs ++ [r]) r = rowCount recs r + 1 := by
  simp [rowCount, List.count_append]

lemma linkedinLoop_error_records (script : String → Nat → AttemptResult)
    (maxRetries : Nat) (dryRun : Bool) (db0 : List LedgerRow) :
    ∀ (jobs : List String) (recs : List LedgerRow) (tr : List String), jobs.Nodup →
      ∀ j, rowCount (linkedinLoop script maxRetries dryRun db0 jobs recs tr).records
          (j, Status.error)
        ≤ rowCount recs (j, Status.error) + (if j ∈ jobs then 1 else 0) := by
  intro jobs
  induction jobs with
  | nil =>
    intro recs tr _ j
    rw [linkedinLoop_nil]
    show rowCount recs (j, Status.error) ≤ _
    split <;> omega
  | cons j0 rest ih =>
    intro recs tr hnd j
    have hnd' := List.nodup_cons.mp hnd
    have hmem : ∀ h : j ∈ rest, j ∈ j0 :: rest := fun h => List.mem_cons_of_mem _ h
    have hfin : ∀ r' : List LedgerRow,
        rowCount r' (j, Status.error) = rowCount recs (j, Status.error) →
        ∀ tr', rowCount (linkedinLoop script maxRetries dryRun db0 rest r' tr').records
            (j, Status.error)
          ≤ rowCount recs (j, Status.error) + (if j ∈ j0 :: rest then 1 else 0) := by
      intro r' hr' tr'
      have h := ih r' tr' hnd'.2 j
      rw [hr'] at h
      by_cases hj : j ∈ rest
      · rw [if_pos (hmem hj)]
        rw [if_pos hj] at h
        omega
      · rw [if_neg hj] at h
        split <;> omega
    cases hap : hasAppliedRows (db0 ++ recs) j0 with
    | true =>
      rw [linkedinLoop_applied _ _ _ _ _ _ _ _ hap]
      exact hfin _ (rowCount_append_other _ _ _ (by simp)) tr
    | false =>
      cases hterm : runJobL (script j0) maxRetries with
      | submittedT a =>
        rw [linkedinLoop_submitted _ _ _ _ _ _ _ _ _ hap hterm]
        exact hfin _ (rowCount_append_other _ _ _ (by cases dryRun <;> simp)) _
      | skippedNoRec a =>
        rw [linkedinLoop_skipNoRec _ _ _ _ _ _ _ _ _ hap hterm]
        exact hfin _ rfl _
      | skippedRec b a =>
        rw [linkedinLoop_skipRec _ _ _ _ _ _ _ _ _ _ hap hterm]
        exact hfin _ (rowCount_append_other _ _ _ (by cases b <;> simp)) _
      | erroredT a =>
        rw [linkedinLoop_errored _ _ _ _ _ _ _ _ _ hap hterm]
        by_cases hj0 : j = j0
        · subst hj0
          rw [if_pos (List.mem_cons_self _ _)]
          have h := ih (recs ++ [(j, Status.error)]) (tr ++ List.replicate a j) hnd'.2 j
          rw [if_neg hnd'.1, rowCount_append_same] at h
          omega
        · exact hfin _
            (rowCount_append_other _ _ _ (by simp [Prod.ext_iff]; intro h; exact absurd h.symm hj0)) _
      | blockedT a =>
        rw [linkedinLoop_blocked _ _ _ _ _ _ _ _ _ hap hterm]
        show rowCount (recs ++ [blockRow]) (j, Status.error) ≤ _
        rw [rowCount_append_other _ _ _ (by simp [blockRow, Prod.ext_iff])]
        split <;> omega

section IndeedEquations

variable (script : String → Nat → AttemptResult) (maxRetries : Nat) (dryRun : Bool)
variable (db0 recs : List LedgerRow) (j0 : String) (rest : List String)
variable (retry : String → Nat) (tr : List String)

lemma indeedLoop_nil (retry : String → Nat) :
    indeedLoop script maxRetries dryRun db0 [] retry recs tr = ⟨recs, tr, false⟩ := by
  rw [indeedLoop]

lemma indeedLoop_applied (hap : hasAppliedRows (db0 ++ recs) j0 = true) :
    indeedLoop script maxRetries dryRun db0 (j0 :: rest) retry recs tr =
      indeedLoop script maxRetries dryRun db0 rest retry
        (recs ++ [(j0, Status.already_applied)]) tr := by
  rw [indeedLoop, if_pos hap]

lemma indeedLoop_completed (hap : hasAppliedRows (db0 ++ recs) j0 = false)
    (hs : script j0 (retry j0) = .completed) :
    indeedLoop script maxRetries dryRun db0 (j0 :: rest) retry recs tr =
      indeedLoop script maxRetries dryRun db0 rest retry
        (recs ++ [(j0, if dryRun then Status.dry_run else Status.submitted)])
        (tr ++ [j0]) := by
  rw [indeedLoop, if_neg (by simp [hap]), hs]

lemma indeedLoop_skipNoRec (hap : hasAppliedRows (db0 ++ recs) j0 = false)
    (hs : script j0 (retry j0) = .skipNoRecord) :
    indeedLoop script maxRetries dryRun db0 (j0 :: rest) retry recs tr =
      indeedLoop script maxRetries dryRun db0 rest retry recs (tr ++ [j0]) := by
  rw [indeedLoop, if_neg (by simp [hap]), hs]

lemma indeedLoop_skipRec (b : Bool) (hap : hasAppliedRows (db0 ++ recs) j0 = false)
    (hs : script j0 (retry j0) = .skipRecorded b) :
    indeedLoop script maxRetries dryRun db0 (j0 :: rest) retry recs tr =
      indeedLoop script maxRetries dryRun db0 rest retry
        (recs ++ [(j0, if b then Status.already_applied else Status.skipped)])
        (tr ++ [j0]) := by
  rw [indeedLoop, if_neg (by simp [hap]), hs]

lemma indeedLoop_block (hap : hasAppliedRows (db0 ++ recs) j0 = false)
    (hs : script j0 (retry j0) = .exn true) :
    indeedLoop script maxRetries dryRun db0 (j0 :: rest) retry recs tr =
      ⟨recs ++ [blockRow], tr ++ [j0], true⟩ := by
  rw [indeedLoop, if_neg (by simp [hap]), hs]

lemma indeedLoop_requeue (hap : hasAppliedRows (db0 ++ recs) j0 = false)
    (hs : script j0 (retry j0) = .exn false)
    (hreq : retry j0 + 1 ≤ maxRetries) :
    indeedLoop script maxRetries dryRun db0 (j0 :: rest) retry recs tr =
      indeedLoop script maxRetries dryRun db0 (rest ++ [j0]) (bump retry j0)
        recs (tr ++ [j0]) := by
  rw [indeedLoop, if_neg (by simp [hap]), hs]
  rw [dif_pos hreq]

lemma indeedLoop_errored (hap : hasAppliedRows (db0 ++ recs) j0 = false)
    (hs : script j0 (retry j0) = .exn false)
    (hreq : ¬retry j0 + 1 ≤ maxRetries) :
    indeedLoop script maxRetries dryRun db0 (j0 :: rest) retry recs tr =
      indeedLoop script maxRetries dryRun db0 rest retry
        (recs ++ [(j0, Status.error)]) (tr ++ [j0]) := by
  rw [indeedLoop, if_neg (by simp [hap]), hs]
  rw [dif_neg hreq]

end IndeedEquations

lemma traceCount_append (tr : List String) (j0 j : String) :
    (tr ++ [j0]).count j = tr.count j + (if j0 = j then 1 else 0) := by
  simp only [List.count_append, List.count_singleton]
  by_cases h : j0 = j
  · simp [h]
  · simp [h, beq_false_of_ne h]

/-- Per-job attempt bound for the Indeed queue loop: with distinct job ids
and every pending retry counter within the bound, a job contributes at most
`maxRetries + 1 - retry j` further attempts to the trace. -/
lemma indeedLoop_trace_count (script : String → Nat → AttemptResult)
    (maxRetries : Nat) (dryRun : Bool) (db0 : List LedgerRow) :
    ∀ (queue : List String) (retry : String → Nat) (recs : List LedgerRow)
      (tr : List String), queue.Nodup → (∀ x ∈ queue, retry x ≤ maxRetries) →
      ∀ j, ((indeedLoop script maxRetries dryRun db0 queue retry recs tr).trace.count j)
        ≤ tr.count j + (if j ∈ queue then maxRetries + 1 - retry j else 0) := by
  intro queue retry recs tr
  induction queue, retry, recs, tr using indeedLoop.induct script maxRetries dryRun db0 with
  | case1 retry recs tr =>
    intro _ _ j
    rw [indeedLoop_nil]
    show tr.count j ≤ _
    split <;> omega
  | case2 j0 rest retry recs tr hap ih =>
    intro hnd hb j
    have hnd' := List.nodup_cons.mp hnd
    rw [indeedLoop_applied _ _ _ _ _ _ _ _ _ hap]
    have h := ih hnd'.2 (fun x hx => hb x (List.mem_cons_of_mem _ hx)) j
    by_cases hj : j ∈ rest
    · rw [if_pos (List.mem_cons_of_mem _ hj)]
      rw [if_pos hj] at h
      omega
    · rw [if_neg hj] at h
      have hbj : j ∈ j0 :: rest → retry j ≤ maxRetries := fun hm => hb j hm
      split
      · omega
      · omega
  | case3 j0 rest retry recs tr hap hs ih =>
    intro hnd hb j
    have hnd' := List.nodup_cons.mp hnd
    rw [indeedLoop_completed _ _ _ _ _ _ _ _ _ (by simpa using hap) hs]
    have h := ih hnd'.2 (fun x hx => hb x (List.mem_cons_of_mem _ hx)) j
    simp only [dite_eq_ite] at h
    set recs2 := recs ++ [(j0, if dryRun then Status.dry_run else Status.submitted)]
    rw [traceCount_append] at h
    by_cases hj0 : j0 = j
    · subst hj0
      rw [if_pos (List.mem_cons_self _ _)]
      rw [if_neg hnd'.1, if_pos rfl] at h
      have := hb j0 (List.mem_cons_self _ _)
      omega
    · rw [if_neg hj0] at h
      by_cases hj : j ∈ rest
      · rw [if_pos (List.mem_cons_of_mem _ hj)]
        rw [if_pos hj] at h
        omega
      · rw [if_neg hj] at h
        rw [if_neg (by
          intro hm
          rcases List.mem_cons.mp hm with h' | h'
          · exact hj0 h'.symm
          · exact hj h')]
        omega
  | case4 j0 rest retry recs tr hap hs ih =>
    intro hnd hb j
    have hnd' := List.nodup_cons.mp hnd
    rw [indeedLoop_skipNoRec _ _ _ _ _ _ _ _ _ (by simpa using hap) hs]
    have h := ih hnd'.2 (fun x hx => hb x (List.mem_cons_of_mem _ hx)) j
    rw [traceCount_append] at h
    by_cases hj0 : j0 = j
    · subst hj0
      rw [if_pos (List.mem_cons_self _ _)]
      rw [if_neg hnd'.1, if_pos rfl] at h
      have := hb j0 (List.mem_cons_self _ _)
      omega
    · rw [if_neg hj0] at h
      by_cases hj : j ∈ rest
      · rw [if_pos (List.mem_cons_of_mem _ hj)]
        rw [if_pos hj] at h
        omega
      · rw [if_neg hj] at h
        rw [if_neg (by
          intro hm
          rcases List.mem_cons.mp hm with h' | h'
          · exact hj0 h'.symm
          · exact hj h')]
        omega
  | case5 j0 rest retry recs tr hap b hs ih =>
    intro hnd hb j
    have hnd' := List.nodup_cons.mp hnd
    rw [indeedLoop_skipRec _ _ _ _ _ _ _ _ _ _ (by simpa using hap) hs]
    have h := ih hnd'.2 (fun x hx => hb x (List.mem_cons_of_mem _ hx)) j
    simp only [dite_eq_ite] at h
    set recs2 := recs ++ [(j0, if b then Status.already_applied else Status.skipped)]
    rw [traceCount_append] at h
    by_cases hj0 : j0 = j
    · subst hj0
      rw [if_pos (List.mem_cons_self _ _)]
      rw [if_neg hnd'.1, if_pos rfl] at h
      have := hb j0 (List.mem_cons_self _ _)
      omega
    · rw [if_neg hj0] at h
      by_cases hj : j ∈ rest
      · rw [if_pos (List.mem_cons_of_mem _ hj)]
        rw [if_pos hj] at h
        omega
      · rw [if_neg hj] at h
        rw [if_neg (by
          intro hm
          rcases List.mem_cons.mp hm with h' | h'
          · exact hj0 h'.symm
          · exact hj h')]
        omega
  | case6 j0 rest retry recs tr hap hs =>
    intro hnd hb j
    rw [indeedLoop_block _ _ _ _ _ _ _ _ _ (by simpa using hap) hs]
    show (tr ++ [j0]).count j ≤ _
    rw [traceCount_append]
    by_cases hj0 : j0 = j
    · subst hj0
      rw [if_pos rfl, if_pos (List.mem_cons_self _ _)]
      have := hb j0 (List.mem_cons_self _ _)
      omega
    · rw [if_neg hj0]
      split <;> omega
  | case7 j0 rest retry recs tr hap hs hreq ih =>
    intro hnd hb j
    have hnd' := List.nodup_cons.mp hnd
    rw [indeedLoop_requeue _ _ _ _ _ _ _ _ _ (by simpa using hap) hs hreq]
    have hndq : (rest ++ [j0]).Nodup := by
      rw [List.nodup_append]
      exact ⟨hnd'.2, List.nodup_singleton _, by
        intro x hx
        simp only [List.mem_singleton]
        intro hcontr
        subst hcontr
        exact hnd'.1 hx⟩
    have hbq : ∀ x ∈ rest ++ [j0], bump retry j0 x ≤ maxRetries := by
      intro x hx
      by_cases hxj : x = j0
      · subst hxj
        have hbx : bump retry x x = retry x + 1 := by simp [bump]
        rw [hbx]
        omega
      · simp only [bump, if_neg hxj]
        rcases List.mem_append.mp hx with h | h
        · exact hb x (List.mem_cons_of_mem _ h)
        · exact absurd (List.mem_singleton.mp h) hxj
    have h := ih hndq hbq j
    rw [traceCount_append] at h
    by_cases hj0 : j0 = j
    · subst hj0
      rw [if_pos (List.mem_cons_self _ _)]
      rw [if_pos rfl] at h
      rw [if_pos (by simp)] at h
      rw [show bump retry j0 j0 = retry j0 + 1 from by simp [bump]] at h
      omega
    · rw [if_neg hj0] at h
      rw [show bump retry j0 j = retry j from by
        simp [bump]; intro hcontr; exact absurd hcontr.symm hj0] at h
      by_cases hj : j ∈ rest
      · rw [if_pos (List.mem_cons_of_mem _ hj)]
        rw [if_pos (by simp [hj])] at h
        omega
      · rw [if_neg (by
          intro hm
          rcases List.mem_cons.mp hm with h' | h'
          · exact hj0 h'.symm
          · exact hj h')]
        rw [if_neg (by
          intro hm
          rcases List.mem_append.mp hm with h' | h'
          · exact hj h'
          · exact hj0 (List.mem_singleton.mp h').symm)] at h
        omega
  | case8 j0 rest retry recs tr hap hs hreq ih =>
    intro hnd hb j
    have hnd' := List.nodup_cons.mp hnd
    rw [indeedLoop_errored _ _ _ _ _ _ _ _ _ (by simpa using hap) hs hreq]
    have h := ih hnd'.2 (fun x hx => hb x (List.mem_cons_of_mem _ hx)) j
    rw [traceCount_append] at h
    by_cases hj0 : j0 = j
    · subst hj0
      rw [if_pos (List.mem_cons_self _ _)]
      rw [if_neg hnd'.1, if_pos rfl] at h
      have := hb j0 (List.mem_cons_self _ _)
      omega
    · rw [if_neg hj0] at h
      by_cases hj : j ∈ rest
      · rw [if_pos (List.mem_cons_of_mem _ hj)]
        rw [if_pos hj] at h
        omega
      · rw [if_neg hj] at h
        rw [if_neg (by
          intro hm
          rcases List.mem_cons.mp hm with h' | h'
          · exact hj0 h'.symm
          · exact hj h')]
        omega

/-- At most one terminal error row per job id in the Indeed queue loop. -/
lemma indeedLoop_error_records (script : String → Nat → AttemptResult)
    (maxRetries : Nat) (dryRun : Bool) (db0 : List LedgerRow) :
    ∀ (queue : List String) (retry : String → Nat) (recs : List LedgerRow)
      (tr : List String), queue.Nodup →
      ∀ j, rowCount (indeedLoop script maxRetries dryRun db0 queue retry recs tr).records
          (j, Status.error)
        ≤ rowCount recs (j, Status.error) + (if j ∈ queue then 1 else 0) := by
  intro queue retry recs tr
  induction queue, retry, recs, tr using indeedLoop.induct script maxRetries dryRun db0 with
  | case1 retry recs tr =>
    intro _ j
    rw [indeedLoop_nil]
    show rowCount recs (j, Status.error) ≤ _
    split <;> omega
  | case2 j0 rest retry recs tr hap ih =>
    intro hnd j
    have hnd' := List.nodup_cons.mp hnd
    rw [indeedLoop_applied _ _ _ _ _ _ _ _ _ hap]
    have h := ih hnd'.2 j
    rw [rowCount_append_other _ _ _ (by simp)] at h
    by_cases hj : j ∈ rest
    · rw [if_pos (List.mem_cons_of_mem _ hj)]
      rw [if_pos hj] at h
      omega
    · rw [if_neg hj] at h
      split <;> omega
  | case3 j0 rest retry recs tr hap hs ih =>
    intro hnd j
    have hnd' := List.nodup_cons.mp hnd
    rw [indeedLoop_completed _ _ _ _ _ _ _ _ _ (by simpa using hap) hs]
    have h := ih hnd'.2 j
    simp only [dite_eq_ite] at h
    rw [rowCount_append_other _ _ _ (by cases dryRun <;> simp)] at h
    set recs2 := recs ++ [(j0, if dryRun then Status.dry_run else Status.submitted)]
    by_cases hj : j ∈ rest
    · rw [if_pos (List.mem_cons_of_mem _ hj)]
      rw [if_pos hj] at h
      omega
    · rw [if_neg hj] at h
      split <;> omega
  | case4 j0 rest retry recs tr hap hs ih =>
    intro hnd j
    have hnd' := List.nodup_cons.mp hnd
    rw [indeedLoop_skipNoRec _ _ _ _ _ _ _ _ _ (by simpa using hap) hs]
    have h := ih hnd'.2 j
    by_cases hj : j ∈ rest
    · rw [if_pos (List.mem_cons_of_mem _ hj)]
      rw [if_pos hj] at h
      omega
    · rw [if_neg hj] at h
      split <;> omega
  | case5 j0 rest retry recs tr hap b hs ih =>
    intro hnd j
    have hnd' := List.nodup_cons.mp hnd
    rw [indeedLoop_skipRec _ _ _ _ _ _ _ _ _ _ (by simpa using hap) hs]
    have h := ih hnd'.2 j
    simp only [dite_eq_ite] at h
    rw [rowCount_append_other _ _ _ (by cases b <;> simp)] at h
    set recs2 := recs ++ [(j0, if b then Status.already_applied else Status.skipped)]
    by_cases hj : j ∈ rest
    · rw [if_pos (List.mem_cons_of_mem _ hj)]
      rw [if_pos hj] at h
      omega
    · rw [if_neg hj] at h
      split <;> omega
  | case6 j0 rest retry recs tr hap hs =>
    intro hnd j
    rw [indeedLoop_block _ _ _ _ _ _ _ _ _ (by simpa using hap) hs]
    show rowCount (recs ++ [blockRow]) (j, Status.error) ≤ _
    rw [rowCount_append_other _ _ _ (by simp [blockRow, Prod.ext_iff])]
    split <;> omega
  | case7 j0 rest retry recs tr hap hs hreq ih =>
    intro hnd j
    have hnd' := List.nodup_cons.mp hnd
    rw [indeedLoop_requeue _ _ _ _ _ _ _ _ _ (by simpa using hap) hs hreq]
    have hndq : (rest ++ [j0]).Nodup := by
      rw [List.nodup_append]
      exact ⟨hnd'.2, List.nodup_singleton _, by
        intro x hx
        simp only [List.mem_singleton]
        intro hcontr
        subst hcontr
        exact hnd'.1 hx⟩
    have h := ih hndq j
    by_cases hjm : j ∈ j0 :: rest
    · rw [if_pos hjm]
      rw [if_pos (by
        rcases List.mem_cons.mp hjm with h' | h'
        · subst h'; simp
        · simp [h'])] at h
      omega
    · rw [if_neg hjm]
      rw [if_neg (by
        intro hm
        apply hjm
        rcases List.mem_append.mp hm with h' | h'
        · exact List.mem_cons_of_mem _ h'
        · rw [List.mem_singleton.mp h']
          exact List.mem_cons_self _ _)] at h
      omega
  | case8 j0 rest retry recs tr hap hs hreq ih =>
    intro hnd j
    have hnd' := List.nodup_cons.mp hnd
    rw [indeedLoop_errored _ _ _ _ _ _ _ _ _ (by simpa using hap) hs hreq]
    have h := ih hnd'.2 j
    by_cases hj0 : j = j0
    · subst hj0
      rw [if_pos (List.mem_cons_self _ _)]
      rw [if_neg hnd'.1, rowCount_append_same] at h
      omega
    · rw [rowCount_append_other _ _ _
        (by simp [Prod.ext_iff]; intro hcontr; exact absurd hcontr.symm hj0)] at h
      by_cases hj : j ∈ rest
      · rw [if_pos (List.mem_cons_of_mem _ hj)]
        rw [if_pos hj] at h
        omega
      · rw [if_neg hj] at h
        rw [if_neg (by
          intro hm
          rcases List.mem_cons.mp hm with h' | h'
          · exact hj0 h'
          · exact hj h')]
        omega

/-- Per-job attempt bound for the LinkedIn loop: with distinct job ids,
each job is attempted at most `maxRetries + 1` times. -/
lemma linkedinLoop_trace_count (script : String → Nat → AttemptResult)
    (maxRetries : Nat) (dryRun : Bool) (db0 : List LedgerRow) :
    ∀ (jobs : List String) (recs : List LedgerRow) (tr : List String), jobs.Nodup →
      ∀ j, ((linkedinLoop script maxRetries dryRun db0 jobs recs tr).trace.count j)
        ≤ tr.count j + (if j ∈ jobs then maxRetries + 1 else 0) := by
  intro jobs
  induction jobs with
  | nil =>
    intro recs tr _ j
    rw [linkedinLoop_nil]
    show tr.count j ≤ _
    split <;> omega
  | cons j0 rest ih =>
    intro recs tr hnd j
    have hnd' := List.nodup_cons.mp hnd
    have hrep : ∀ (a : Nat) (tr' : List String), a ≤ maxRetries + 1 →
        (tr' ++ List.replicate a j0).count j ≤ tr'.count j +
          (if j0 = j then maxRetries + 1 else 0) := by
      intro a tr' ha
      rw [List.count_append]
      by_cases hj0 : j0 = j
      · rw [if_pos hj0]
        have hcr : (List.replicate a j0).count j ≤ a :=
          le_trans (List.count_le_length _ _) (by simp)
        omega
      · rw [if_neg hj0]
        have hcr : (List.replicate a j0).count j = 0 := by
          rw [List.count_eq_zero]
          intro hm
          exact hj0 (List.eq_of_mem_replicate hm).symm
        omega
    have hfin : ∀ (r' : List LedgerRow) (tr' : List String),
        tr'.count j ≤ tr.count j + (if j0 = j then maxRetries + 1 else 0) →
        (j0 = j → j ∉ rest) →
        ((linkedinLoop script maxRetries dryRun db0 rest r' tr').trace.count j)
          ≤ tr.count j + (if j ∈ j0 :: rest then maxRetries + 1 else 0) := by
      intro r' tr' htr hnotin
      have h := ih r' tr' hnd'.2 j
      by_cases hj0 : j0 = j
      · subst hj0
        rw [if_pos (List.mem_cons_self _ _)]
        rw [if_neg (hnotin rfl)] at h
        rw [if_pos rfl] at htr
        omega
      · rw [if_neg hj0] at htr
        by_cases hj : j ∈ rest
        · rw [if_pos (List.mem_cons_of_mem _ hj)]
          rw [if_pos hj] at h
          omega
        · rw [if_neg (by
            intro hm
            rcases List.mem_cons.mp hm with h' | h'
            · exact hj0 h'.symm
            · exact hj h')]
          rw [if_neg hj] at h
          omega
    have hnotin : j0 = j → j ∉ rest := by
      intro hj0
      subst hj0
      exact hnd'.1
    cases hap : hasAppliedRows (db0 ++ recs) j0 with
    | true =>
      rw [linkedinLoop_applied _ _ _ _ _ _ _ _ hap]
      exact hfin _ tr (by split <;> omega) hnotin
    | false =>
      cases hterm : runJobL (script j0) maxRetries with
      | submittedT a =>
        rw [linkedinLoop_submitted _ _ _ _ _ _ _ _ _ hap hterm]
        refine hfin _ _ (hrep a tr ?_) hnotin
        have := runJobAuxL_attempts (script j0) maxRetries 0
        rw [show runJobAuxL (script j0) 0 maxRetries = runJobL (script j0) maxRetries
          from rfl, hterm] at this
        simpa [JobTerm.attempts] using this
      | skippedNoRec a =>
        rw [linkedinLoop_skipNoRec _ _ _ _ _ _ _ _ _ hap hterm]
        refine hfin _ _ (hrep a tr ?_) hnotin
        have := runJobAuxL_attempts (script j0) maxRetries 0
        rw [show runJobAuxL (script j0) 0 maxRetries = runJobL (script j0) maxRetries
          from rfl, hterm] at this
        simpa [JobTerm.attempts] using this
      | skippedRec b a =>
        rw [linkedinLoop_skipRec _ _ _ _ _ _ _ _ _ _ hap hterm]
        refine hfin _ _ (hrep a tr ?_) hnotin
        have := runJobAuxL_attempts (script j0) maxRetries 0
        rw [show runJobAuxL (script j0) 0 maxRetries = runJobL (script j0) maxRetries
          from rfl, hterm] at this
        simpa [JobTerm.attempts] using this
      | erroredT a =>
        rw [linkedinLoop_errored _ _ _ _ _ _ _ _ _ hap hterm]
        refine hfin _ _ (hrep a tr ?_) hnotin
        have := runJobAuxL_attempts (script j0) maxRetries 0
        rw [show runJobAuxL (script j0) 0 maxRetries = runJobL (script j0) maxRetries
          from rfl, hterm] at this
        simpa [JobTerm.attempts] using this
      | blockedT a =>
        rw [linkedinLoop_blocked _ _ _ _ _ _ _ _ _ hap hterm]
        show (tr ++ List.replicate a j0).count j ≤ _
        have ha : a ≤ maxRetries + 1 := by
          have := runJobAuxL_attempts (script j0) maxRetries 0
          rw [show runJobAuxL (script j0) 0 maxRetries = runJobL (script j0) maxRetries
            from rfl, hterm] at this
          simpa [JobTerm.attempts] using this
        have := hrep a tr ha
        by_cases hj0 : j0 = j
        · subst hj0
          rw [if_pos (List.mem_cons_self _ _)]
          rw [if_pos rfl] at this
          omega
        · rw [if_neg hj0] at this
          split <;> omega

/-! ## C7 — block latch -/

/-- Number of `captcha_blocked` rows a run wrote. -/
def blockedCount (rows : List LedgerRow) : Nat :=
  (rows.filter fun r => r.2 == Status.captcha_blocked).length

lemma blockedCount_append_other (rows : List LedgerRow) (r : LedgerRow)
    (h : r.2 ≠ Status.captcha_blocked) :
    blockedCount (rows ++ [r]) = blockedCount rows := by
  simp [blockedCount, List.filter_append, beq_false_of_ne h]

lemma blockedCount_append_block (rows : List LedgerRow) :
    blockedCount (rows ++ [blockRow]) = blockedCount rows + 1 := by
  simp [blockedCount, List.filter_append, blockRow]

/-- Once the LinkedIn loop hits a block, it appends exactly one
`captcha_blocked` row, which is the last row written, and stops. -/
lemma linkedinLoop_latch (script : String → Nat → AttemptResult)
    (maxRetries : Nat) (dryRun : Bool) (db0 : List LedgerRow) :
    ∀ (jobs : List String) (recs : List LedgerRow) (tr : List String),
      blockedCount recs = 0 →
      (blockedCount (linkedinLoop script maxRetries dryRun db0 jobs recs tr).records =
        if (linkedinLoop script maxRetries dryRun db0 jobs recs tr).blocked then 1 else 0)
      ∧ ((linkedinLoop script maxRetries dryRun db0 jobs recs tr).blocked = true →
          (linkedinLoop script maxRetries dryRun db0 jobs recs tr).records.getLast? =
            some blockRow) := by
  intro jobs
  induction jobs with
  | nil =>
    intro recs tr h0
    rw [linkedinLoop_nil]
    exact ⟨by simpa using h0, by intro h; exact absurd h (by simp)⟩
  | cons j0 rest ih =>
    intro recs tr h0
    cases hap : hasAppliedRows (db0 ++ recs) j0 with
    | true =>
      rw [linkedinLoop_applied _ _ _ _ _ _ _ _ hap]
      exact ih _ tr (by rw [blockedCount_append_other _ _ (by simp)]; exact h0)
    | false =>
      cases hterm : runJobL (script j0) maxRetries with
      | submittedT a =>
        rw [linkedinLoop_submitted _ _ _ _ _ _ _ _ _ hap hterm]
        exact ih _ _ (by
          rw [blockedCount_append_other _ _ (by cases dryRun <;> simp)]; exact h0)
      | skippedNoRec a =>
        rw [linkedinLoop_skipNoRec _ _ _ _ _ _ _ _ _ hap hterm]
        exact ih _ _ h0
      | skippedRec b a =>
        rw [linkedinLoop_skipRec _ _ _ _ _ _ _ _ _ _ hap hterm]
        exact ih _ _ (by
          rw [blockedCount_append_other _ _ (by cases b <;> simp)]; exact h0)
      | erroredT a =>
        rw [linkedinLoop_errored _ _ _ _ _ _ _ _ _ hap hterm]
        exact ih _ _ (by rw [blockedCount_append_other _ _ (by simp)]; exact h0)
      | blockedT a =>
        rw [linkedinLoop_blocked _ _ _ _ _ _ _ _ _ hap hterm]
        refine ⟨?_, ?_⟩
        · show blockedCount (recs ++ [blockRow]) = if true = true then 1 else 0
          rw [blockedCount_append_block, h0, if_pos rfl]
        · intro _
          show (recs ++ [blockRow]).getLast? = some blockRow
          rw [List.getLast?_concat]

/-- Once the Indeed loop hits a block, it appends exactly one
`captcha_blocked` row, which is the last row written, and stops. -/
lemma indeedLoop_latch (script : String → Nat → AttemptResult)
    (maxRetries : Nat) (dryRun : Bool) (db0 : List LedgerRow) :
    ∀ (queue : List String) (retry : String → Nat) (recs : List LedgerRow)
      (tr : List String), blockedCount recs = 0 →
      (blockedCount (indeedLoop script maxRetries dryRun db0 queue retry recs tr).records =
        if (indeedLoop script maxRetries dryRun db0 queue retry recs tr).blocked then 1 else 0)
      ∧ ((indeedLoop script maxRetries dryRun db0 queue retry recs tr).blocked = true →
          (indeedLoop script maxRetries dryRun db0 queue retry recs tr).records.getLast? =
            some blockRow) := by
  intro queue retry recs tr
  induction queue, retry, recs, tr using indeedLoop.induct script maxRetries dryRun db0 with
  | case1 retry recs tr =>
    intro h0
    rw [indeedLoop_nil]
    exact ⟨by simpa using h0, by intro h; exact absurd h (by simp)⟩
  | case2 j0 rest retry recs tr hap ih =>
    intro h0
    rw [indeedLoop_applied _ _ _ _ _ _ _ _ _ hap]
    exact ih (by rw [blockedCount_append_other _ _ (by simp)]; exact h0)
  | case3 j0 rest retry recs tr hap hs ih =>
    intro h0
    rw [indeedLoop_completed _ _ _ _ _ _ _ _ _ (by simpa using hap) hs]
    have := ih (by
      rw [blockedCount_append_other _ _ (by cases dryRun <;> simp)]; exact h0)
    simpa only [dite_eq_ite] using this
  | case4 j0 rest retry recs tr hap hs ih =>
    intro h0
    rw [indeedLoop_skipNoRec _ _ _ _ _ _ _ _ _ (by simpa using hap) hs]
    exact ih h0
  | case5 j0 rest retry recs tr hap b hs ih =>
    intro h0
    rw [indeedLoop_skipRec _ _ _ _ _ _ _ _ _ _ (by simpa using hap) hs]
    have := ih (by
      rw [blockedCount_append_other _ _ (by cases b <;> simp)]; exact h0)
    simpa only [dite_eq_ite] using this
  | case6 j0 rest retry recs tr hap hs =>
    intro h0
    rw [indeedLoop_block _ _ _ _ _ _ _ _ _ (by simpa using hap) hs]
    refine ⟨?_, ?_⟩
    · show blockedCount (recs ++ [blockRow]) = if true = true then 1 else 0
      rw [blockedCount_append_block, h0, if_pos rfl]
    · intro _
      show (recs ++ [blockRow]).getLast? = some blockRow
      rw [List.getLast?_concat]
  | case7 j0 rest retry recs tr hap hs hreq ih =>
    intro h0
    rw [indeedLoop_requeue _ _ _ _ _ _ _ _ _ (by simpa using hap) hs hreq]
    exact ih h0
  | case8 j0 rest retry recs tr hap hs hreq ih =>
    intro h0
    rw [indeedLoop_errored _ _ _ _ _ _ _ _ _ (by simpa using hap) hs hreq]
    exact ih (by rw [blockedCount_append_other _ _ (by simp)]; exact h0)

/-- The C6 scenario script: job A fails retryably on its first attempt and
succeeds afterwards; every other job succeeds immediately. -/
def exScriptC6 : String → Nat → AttemptResult :=
  fun j n => if j = ("A") ∧ n = 0 then .exn false else .completed

/-- Counterexample to C6 as stated: with candidates A, B (`maxRetries = 1`)
where A fails retryably once and then succeeds, the LinkedIn loop's attempt
order is A, A, B — the retry re-visits the same card index immediately
(`cardIdx--`) instead of requeueing A at the back of the batch, which
would give the order A, B, A. -/
theorem linkedin_retry_order_counterexample :
    (linkedinRun false exScriptC6 1 false [] [("A"), ("B")]).trace = [("A"), ("A"), ("B")]
    ∧ ([("A"), ("A"), ("B")] : List String) ≠ [("A"), ("B"), ("A")] := by
  exact ⟨by decide, by decide⟩

/-- C6 (amended): a retryable job-level exception is retried with the same
in-memory counter bound on both platforms — LinkedIn re-visits the same
card index immediately, Indeed requeues the job at the back of the batch
with its counter bumped; a job is attempted at most `maxRetries + 1` times;
once the bound is exhausted one terminal error record is written (at most
one error record per job id ever appears) and the loop continues with the
next candidate; a retried job that eventually succeeds produces the
submitted outcome and no error record. -/
theorem retry_supervision (script : String → Nat → AttemptResult) (maxRetries : Nat)
    (dryRun : Bool) (db0 : List LedgerRow) :
    (∀ s : Nat → AttemptResult, (runJobL s maxRetries).attempts ≤ maxRetries + 1)
    ∧ (∀ s : Nat → AttemptResult, (∀ k, k ≤ maxRetries → s k = .exn false) →
        runJobL s maxRetries = .erroredT (maxRetries + 1))
    ∧ (∀ (s : Nat → AttemptResult) k, k ≤ maxRetries →
        (∀ m, m < k → s m = .exn false) → s k = .completed →
        runJobL s maxRetries = .submittedT (k + 1))
    ∧ (∀ (j0 : String) (rest : List String) (recs : List LedgerRow)
        (tr : List String) (a : Nat),
        hasAppliedRows (db0 ++ recs) j0 = false →
        runJobL (script j0) maxRetries = .erroredT a →
        linkedinLoop script maxRetries dryRun db0 (j0 :: rest) recs tr =
          linkedinLoop script maxRetries dryRun db0 rest
            (recs ++ [(j0, Status.error)]) (tr ++ List.replicate a j0))
    ∧ (∀ (j0 : String) (rest : List String) (retry : String → Nat)
        (recs : List LedgerRow) (tr : List String),
        hasAppliedRows (db0 ++ recs) j0 = false →
        script j0 (retry j0) = .exn false → retry j0 + 1 ≤ maxRetries →
        indeedLoop script maxRetries dryRun db0 (j0 :: rest) retry recs tr =
          indeedLoop script maxRetries dryRun db0 (rest ++ [j0]) (bump retry j0)
            recs (tr ++ [j0]))
    ∧ (∀ jobs : List String, jobs.Nodup → ∀ j,
        (linkedinRun false script maxRetries dryRun db0 jobs).trace.count j ≤ maxRetries + 1
        ∧ rowCount (linkedinRun false script maxRetries dryRun db0 jobs).records
            (j, Status.error) ≤ 1)
    ∧ (∀ jobs : List String, jobs.Nodup → ∀ j,
        (indeedRun false script maxRetries dryRun db0 jobs).trace.count j ≤ maxRetries + 1
        ∧ rowCount (indeedRun false script maxRetries dryRun db0 jobs).records
            (j, Status.error) ≤ 1) := by
  refine ⟨?_, ?_, ?_, ?_, ?_, ?_, ?_⟩
  · intro s
    have := runJobAuxL_attempts s maxRetries 0
    simpa [runJobL] using this
  · intro s hall
    have := runJobAuxL_all_fail s maxRetries 0
      (fun k hk1 hk2 => hall k (by omega))
    simpa [runJobL] using this
  · intro s k hk hfail hdone
    have := runJobAuxL_succeeds s k maxRetries 0 hk
      (fun m hm1 hm2 => hfail m (by omega)) (by simpa using hdone)
    simpa [runJobL] using this
  · intro j0 rest recs tr a hap hterm
    exact linkedinLoop_errored _ _ _ _ _ _ _ _ _ hap hterm
  · intro j0 rest retry recs tr hap hs hreq
    exact indeedLoop_requeue _ _ _ _ _ _ _ _ _ hap hs hreq
  · intro jobs hnd j
    constructor
    · have := linkedinLoop_trace_count script maxRetries dryRun db0 jobs [] [] hnd j
      simp only [List.count_nil] at this
      show (linkedinLoop script maxRetries dryRun db0 jobs [] []).trace.count j ≤ _
      split at this <;> omega
    · have := linkedinLoop_error_records script maxRetries dryRun db0 jobs [] [] hnd j
      show rowCount (linkedinLoop script maxRetries dryRun db0 jobs [] []).records
        (j, Status.error) ≤ 1
      have h0 : rowCount [] (j, Status.error) = 0 := rfl
      rw [h0] at this
      split at this <;> omega
  · intro jobs hnd j
    constructor
    · have := indeedLoop_trace_count script maxRetries dryRun db0 jobs (fun _ => 0) [] []
        hnd (by intro x _; exact Nat.zero_le _) j
      simp only [List.count_nil] at this
      show (indeedLoop script maxRetries dryRun db0 jobs (fun _ => 0) [] []).trace.count j ≤ _
      split at this <;> omega
    · have := indeedLoop_error_records script maxRetries dryRun db0 jobs (fun _ => 0) [] []
        hnd j
      show rowCount (indeedLoop script maxRetries dryRun db0 jobs (fun _ => 0) [] []).records
        (j, Status.error) ≤ 1
      have h0 : rowCount [] (j, Status.error) = 0 := rfl
      rw [h0] at this
      split at this <;> omega

/-- Witness for C6 (amended) at `maxRetries = 1`: an always-failing job is
attempted exactly twice and ends in the terminal error; a job failing once
then succeeding is submitted on its second attempt; and the concrete
Indeed run with candidates A, B retries A at the back, giving the attempt
order A, B, A with exactly one submitted record for each job. -/
theorem retry_supervision_witness :
    runJobL (fun _ => .exn false) 1 = JobTerm.erroredT 2
    ∧ runJobL (fun n => if n = 0 then .exn false else .completed) 1 = JobTerm.submittedT 2
    ∧ (indeedRun false exScriptC6 1 false [] [("A"), ("B")]).trace = [("A"), ("B"), ("A")]
    ∧ (indeedRun false exScriptC6 1 false [] [("A"), ("B")]).trace.count ("A") ≤ 2
    ∧ rowCount (indeedRun false exScriptC6 1 false []
        [("A"), ("B")]).records (("A"), Status.error) ≤ 1 := by
  have h := retry_supervision exScriptC6 1 false []
  have e1 : indeedLoop exScriptC6 1 false [] [("A"), ("B")] (fun _ => 0) [] [] =
      indeedLoop exScriptC6 1 false [] [("B"), ("A")] (bump (fun _ => 0) ("A")) [] [("A")] := by
    have e := indeedLoop_requeue exScriptC6 1 false [] [] ("A") [("B")] (fun _ => 0) []
      (by decide) (by decide) (by decide)
    simpa using e
  have e2 : indeedLoop exScriptC6 1 false [] [("B"), ("A")] (bump (fun _ => 0) ("A"))
      [] [("A")] =
      indeedLoop exScriptC6 1 false [] [("A")] (bump (fun _ => 0) ("A"))
        [(("B"), Status.submitted)] [("A"), ("B")] := by
    have e := indeedLoop_completed exScriptC6 1 false [] [] ("B") [("A")]
      (bump (fun _ => 0) ("A")) [("A")] (by decide) (by decide)
    simpa using e
  have e3 : indeedLoop exScriptC6 1 false [] [("A")] (bump (fun _ => 0) ("A"))
      [(("B"), Status.submitted)] [("A"), ("B")] =
      indeedLoop exScriptC6 1 false [] [] (bump (fun _ => 0) ("A"))
        [(("B"), Status.submitted), (("A"), Status.submitted)] [("A"), ("B"), ("A")] := by
    have e := indeedLoop_completed exScriptC6 1 false [] [(("B"), Status.submitted)]
      ("A") [] (bump (fun _ => 0) ("A")) [("A"), ("B")] (by decide) (by decide)
    simpa using e
  refine ⟨?_, ?_, ?_, ?_, ?_⟩
  · exact h.2.1 (fun _ => .exn false) (by intro k _; rfl)
  · exact h.2.2.1 (fun n => if n = 0 then .exn false else .completed) 1
      (by omega) (by intro m hm; simp [Nat.lt_one_iff.mp hm]) (by simp)
  · show (indeedLoop exScriptC6 1 false [] [("A"), ("B")] (fun _ => 0) [] []).trace =
      [("A"), ("B"), ("A")]
    rw [e1, e2, e3, indeedLoop_nil]
  · exact (h.2.2.2.2.2.2 [("A"), ("B")] (by decide) ("A")).1
  · exact (h.2.2.2.2.2.2 [("A"), ("B")] (by decide) ("A")).2

/-- C7: once block detection fires — at the initial listing navigation or
after an exception during an attempt — exactly one terminal
`captcha_blocked` record is written for the platform, it is the last
record of the run (nothing further is written, so no non-blocked record
follows), and the loop returns immediately, never retrying the blocked
job. Holds for both the LinkedIn and the Indeed loop. -/
theorem block_latch (blockAtStart : Bool) (script : String → Nat → AttemptResult)
    (maxRetries : Nat) (dryRun : Bool) (db0 : List LedgerRow) (jobs : List String) :
    (blockedCount (linkedinRun blockAtStart script maxRetries dryRun db0 jobs).records =
      if (linkedinRun blockAtStart script maxRetries dryRun db0 jobs).blocked then 1 else 0)
    ∧ ((linkedinRun blockAtStart script maxRetries dryRun db0 jobs).blocked = true →
        (linkedinRun blockAtStart script maxRetries dryRun db0 jobs).records.getLast? =
          some blockRow)
    ∧ (blockedCount (indeedRun blockAtStart script maxRetries dryRun db0 jobs).records =
      if (indeedRun blockAtStart script maxRetries dryRun db0 jobs).blocked then 1 else 0)
    ∧ ((indeedRun blockAtStart script maxRetries dryRun db0 jobs).blocked = true →
        (indeedRun blockAtStart script maxRetries dryRun db0 jobs).records.getLast? =
          some blockRow) := by
  cases blockAtStart with
  | true =>
    refine ⟨rfl, ?_, rfl, ?_⟩
    · intro _
      show ([blockRow] : List LedgerRow).getLast? = some blockRow
      rfl
    · intro _
      show ([blockRow] : List LedgerRow).getLast? = some blockRow
      rfl
  | false =>
    have hL := linkedinLoop_latch script maxRetries dryRun db0 jobs [] [] rfl
    have hI := indeedLoop_latch script maxRetries dryRun db0 jobs (fun _ => 0) [] [] rfl
    exact ⟨hL.1, hL.2, hI.1, hI.2⟩

/-- Witness for C7: a run whose first candidate trips block detection
writes the single `captcha_blocked` row as its last record on both
platforms, and a start-of-run block does the same. -/
theorem block_latch_witness :
    (linkedinRun false (fun _ _ => .exn true) 0 false [] [("A"), ("B")]).blocked = true
    ∧ (linkedinRun false (fun _ _ => .exn true) 0 false [] [("A"), ("B")]).records.getLast? =
        some blockRow
    ∧ blockedCount (linkedinRun false (fun _ _ => .exn true) 0 false []
        [("A"), ("B")]).records = 1
    ∧ (indeedRun false (fun _ _ => .exn true) 0 false [] [("A"), ("B")]).records.getLast? =
        some blockRow := by
  have h := block_latch false (fun _ _ => .exn true) 0 false [] [("A"), ("B")]
  have hstep : indeedLoop (fun _ _ => AttemptResult.exn true) 0 false []
      [("A"), ("B")] (fun _ => 0) [] [] = ⟨[] ++ [blockRow], [] ++ [("A")], true⟩ :=
    indeedLoop_block _ _ _ _ _ _ _ _ _ (by decide) rfl
  have hib : (indeedRun false (fun _ _ => AttemptResult.exn true) 0 false []
      [("A"), ("B")]).blocked = true := by
    show (indeedLoop (fun _ _ => AttemptResult.exn true) 0 false []
      [("A"), ("B")] (fun _ => 0) [] []).blocked = true
    rw [hstep]
  refine ⟨by decide, h.2.1 (by decide), ?_, h.2.2.2 hib⟩
  rw [h.1]
  decide

end JobApply
